import Mathlib

/-!
Shallow embedding of the memory_allocator repository's core
(src/memory_pool.h, src/memory_pool.cpp): block headers, the best-fit
free list with its size index, segregated class lists, fixed-size slab
allocators with thread-local magazines, the strategy dispatcher, scope
tracking, statistics and reset.  size_t arithmetic is modelled on Nat
with explicit reduction mod 2^64 where the source can wrap.  The
thread-local statistics counters of AllocationStats are carried in the
facade state; the timing instrumentation (ScopedTiming) is pure
observation and is not modelled.
-/

namespace MemPool

/-- 2^64, one more than SIZE_MAX: the modulus of size_t arithmetic. -/
def U64 : Nat := 2 ^ 64

/-- sizeof(MemoryBlock) on LP64: next and prev pointers, size, is_free
and strategy, padded to 32 bytes. -/
def headerSize : Nat := 32

/-- MemoryPool::POOL_SIZE, 1 MiB general-pool chunks. -/
def POOL_SIZE : Nat := 1024 * 1024

/-- AllocationStrategy. -/
inductive Strategy where
  | bestFit
  | fixedSize
  | poolBased
  | segregated
deriving DecidableEq, Repr

/-- A block header: address of the header, payload size, free flag and
the sticky strategy tag.  The next/prev links of MemoryBlock are
represented by the order of the containing list structures. -/
structure Block where
  addr : Nat
  size : Nat
  isFree : Bool
  strategy : Strategy
deriving DecidableEq, Repr

/-- End address of a block: header start plus header plus payload. -/
def endA (b : Block) : Nat := b.addr + headerSize + b.size

/-- MemoryBlock::align_size: (size + ALIGNMENT - 1) & ~(ALIGNMENT - 1)
with ALIGNMENT = 16, in wrapping size_t arithmetic. -/
def alignSize (size : Nat) : Nat :=
  let t := (size + 15) % U64
  t - t % 16

/-- MemoryPool::SEGREGATED_CLASS_SIZES. -/
def SEGREGATED_CLASS_SIZES : List Nat := [32, 64, 128, 256, 512, 1024, 2048, 4096]

/-- MemoryPool::SEGREGATED_CLASS_COUNT. -/
def SEGREGATED_CLASS_COUNT : Nat := 8

/-- The scan loop of MemoryPool::select_segregated_class. -/
def selectSegClassGo (size : Nat) : Nat → List Nat → Nat
  | idx, [] => idx
  | idx, c :: rest => if size ≤ c then idx else selectSegClassGo size (idx + 1) rest

/-- MemoryPool::select_segregated_class: index of the first class whose
size is at least the request, SEGREGATED_CLASS_COUNT when none fits. -/
def selectSegClass (size : Nat) : Nat :=
  selectSegClassGo size 0 SEGREGATED_CLASS_SIZES

/-- The reclassification at the top of MemoryPool::allocate. -/
def effectiveStrategy (a : Nat) (strat : Strategy) : Strategy :=
  if strat = Strategy.bestFit then
    if a ≤ 32 then Strategy.fixedSize
    else if a ≤ 128 then Strategy.fixedSize
    else if a ≤ 256 then Strategy.fixedSize
    else if a ≤ 512 then Strategy.segregated
    else Strategy.bestFit
  else strat

/-- The substructure that ends up serving a request. -/
inductive Route where
  | slab32
  | slab128
  | slab256
  | segClass (i : Nat)
  | bestFitPath
  | poolPath
deriving DecidableEq, Repr

/-- Transcription of the branch structure of MemoryPool::allocate (the
reclassification, the thread-cache size selection, the switch whose
default sends FIXED_SIZE requests above 256 to allocate_best_fit) and of
allocate_segregated's class selection with best-fit fallthrough: which
substructure serves a request of the given size and requested
strategy. -/
def dispatchRoute (size : Nat) (strat : Strategy) : Route :=
  let a := alignSize size
  match effectiveStrategy a strat with
  | Strategy.fixedSize =>
      if a ≤ 32 then Route.slab32
      else if a ≤ 128 then Route.slab128
      else if a ≤ 256 then Route.slab256
      else Route.bestFitPath
  | Strategy.poolBased => Route.poolPath
  | Strategy.segregated =>
      let ci := selectSegClass a
      if ci = SEGREGATED_CLASS_COUNT then Route.bestFitPath else Route.segClass ci
  | Strategy.bestFit => Route.bestFitPath

/-- Spec-side aligned size (claim C2): round the request up to the next
16-byte multiple, without wrapping. -/
def alignSpec (size : Nat) : Nat := 16 * ((size + 15) / 16)

/-- Spec-side segregated class choice, written out from the spec's class
table: the smallest declared class that can hold the size. -/
def specSegClass (a : Nat) : Nat :=
  if a ≤ 32 then 0 else if a ≤ 64 then 1 else if a ≤ 128 then 2
  else if a ≤ 256 then 3 else if a ≤ 512 then 4 else if a ≤ 1024 then 5
  else if a ≤ 2048 then 6 else if a ≤ 4096 then 7 else 8

/-- Spec-side dispatcher table, written out from claim C2's words. -/
def dispatchSpec (size : Nat) (strat : Strategy) : Route :=
  let a := alignSize size
  match strat with
  | Strategy.bestFit =>
      if a ≤ 32 then Route.slab32
      else if a ≤ 128 then Route.slab128
      else if a ≤ 256 then Route.slab256
      else if a ≤ 512 then Route.segClass (specSegClass a)
      else Route.bestFitPath
  | Strategy.poolBased => Route.poolPath
  | Strategy.segregated =>
      if 4096 < a then Route.bestFitPath else Route.segClass (specSegClass a)
  | Strategy.fixedSize =>
      if a ≤ 32 then Route.slab32
      else if a ≤ 128 then Route.slab128
      else if a ≤ 256 then Route.slab256
      else Route.bestFitPath

theorem selectSegClass_eq (a : Nat) :
    selectSegClass a = specSegClass a := by
  simp only [selectSegClass, SEGREGATED_CLASS_SIZES, selectSegClassGo, specSegClass]

/-- C2: allocate first rounds the requested size up to a 16-byte multiple
(aligned_size); a BestFit request is reclassified by aligned_size (at
most 32, 128, 256 to the fixed-size slabs of those block sizes, at most
512 to the segregated lists, larger stays BestFit); explicit Pool,
Segregated and FixedSize requests bypass reclassification; a Segregated
request beyond the largest class (4096) and a FixedSize request above
256 fall through to the general pool under best fit. -/
theorem specSegClass_eight (a : Nat) : specSegClass a = 8 ↔ 4096 < a := by
  unfold specSegClass
  split_ifs <;> simp <;> omega

theorem specSegClass_mid (a : Nat) (h1 : 256 < a) (h2 : a ≤ 512) :
    specSegClass a = 4 := by
  unfold specSegClass
  split_ifs <;> omega

theorem c2_dispatcher_table :
    (∀ size strat, dispatchRoute size strat = dispatchSpec size strat) ∧
    (∀ size : Nat, size + 15 < U64 →
      alignSize size = alignSpec size ∧ size ≤ alignSize size ∧
      alignSize size < size + 16 ∧ alignSize size % 16 = 0) := by
  constructor
  · intro size strat
    simp only [dispatchRoute, dispatchSpec]
    generalize alignSize size = a
    cases strat
    case poolBased => simp [effectiveStrategy]
    case fixedSize => simp [effectiveStrategy]
    case segregated =>
      by_cases h : 4096 < a
      · simp [effectiveStrategy, h, selectSegClass_eq, (specSegClass_eight a).2 h,
          SEGREGATED_CLASS_COUNT]
      · have h8 : specSegClass a ≠ 8 := fun hc => h ((specSegClass_eight a).1 hc)
        simp [effectiveStrategy, h, selectSegClass_eq, h8, SEGREGATED_CLASS_COUNT]
    case bestFit =>
      by_cases h1 : a ≤ 32
      · simp [effectiveStrategy, h1]
      · by_cases h2 : a ≤ 128
        · simp [effectiveStrategy, h1, h2]
        · by_cases h3 : a ≤ 256
          · simp [effectiveStrategy, h1, h2, h3]
          · by_cases h4 : a ≤ 512
            · simp [effectiveStrategy, h1, h2, h3, h4, selectSegClass_eq,
                specSegClass_mid a (by omega) h4, SEGREGATED_CLASS_COUNT]
            · simp [effectiveStrategy, h1, h2, h3, h4]
  · intro size h
    unfold alignSize alignSpec
    have h16 : (size + 15) % U64 = size + 15 := Nat.mod_eq_of_lt h
    simp only [h16]
    omega

theorem c2_witness :
    dispatchRoute 300 Strategy.bestFit = dispatchSpec 300 Strategy.bestFit ∧
    (300 : Nat) + 15 < U64 ∧ alignSize 300 = alignSpec 300 := by
  refine ⟨c2_dispatcher_table.1 300 Strategy.bestFit, by decide, ?_⟩
  exact (c2_dispatcher_table.2 300 (by decide)).1

/-! ## The general pool: free list, size index, coalescing -/

/-- General-pool state.  The address-ordered doubly-linked free list is
the list order; the size multimap is a list kept in nondecreasing size
order with stable (upper-bound) insertion; size_lookup is implicit in
erasure by block address.  nextAddr models where the backing allocator
places the next fresh chunk (chunks are never returned adjacent to an
existing one). -/
structure PState where
  freeList : List Block
  sizeIndex : List Block
  chunks : List Nat
  nextAddr : Nat
deriving DecidableEq, Repr

/-- Gap the abstract backing allocator leaves between chunks. -/
def CHUNK_GAP : Nat := 16

/-- std::multimap emplace in add_to_size_index: insert after every entry
whose key is at most the new block's size. -/
def addToSizeIndex (b : Block) : List Block → List Block
  | [] => [b]
  | x :: xs => if x.size ≤ b.size then x :: addToSizeIndex b xs else b :: x :: xs

/-- remove_from_size_index through size_lookup, and the unlink in
detach_free_block: erase the entry of the block with the given header
address, if present. -/
def eraseByAddr (a : Nat) : List Block → List Block
  | [] => []
  | x :: xs => if x.addr = a then xs else x :: eraseByAddr a xs

/-- size_index.lower_bound(size): the first entry with key at least
size. -/
def lowerBound (size : Nat) : List Block → Option Block
  | [] => none
  | x :: xs => if size ≤ x.size then some x else lowerBound size xs

/-- The walk at the head of insert_free_block: advance while the current
block's address is below the new block's, yielding the blocks before
and after the insertion point. -/
def splitAtAddr (a : Nat) (l : List Block) : List Block × List Block :=
  (l.takeWhile (fun x => x.addr < a), l.dropWhile (fun x => x.addr < a))

/-- Second half of coalesce_neighbors: after the successor merge has
produced b1 (current), r1 (the blocks after it) and idx2 (the size
index so far), let an adjacent free BestFit predecessor (the last block
before the insertion point) absorb current, and re-index the surviving
block. -/
def coalescePrev (l : List Block) (b1 : Block) (r1 : List Block)
    (idx2 : List Block) : List Block × List Block :=
  match l.getLast? with
  | some p =>
    if p.isFree = true ∧ p.strategy = Strategy.bestFit ∧
        p.addr + headerSize + p.size = b1.addr then
      (l.dropLast ++ { p with size := p.size + b1.size + headerSize } :: r1,
        addToSizeIndex { p with size := p.size + b1.size + headerSize }
          (eraseByAddr p.addr idx2))
    else (l ++ b1 :: r1, addToSizeIndex b1 idx2)
  | none => (l ++ b1 :: r1, addToSizeIndex b1 idx2)

/-- coalesce_neighbors, invoked right after insert_free_block has linked
b between l (the blocks before it) and r (the blocks after it): drop b
from the size index, absorb an adjacent free BestFit successor into b,
then let an adjacent free BestFit predecessor absorb the result, and
re-index the surviving block.  Returns the new free list and size
index. -/
def coalesceCtx (l : List Block) (b : Block) (r : List Block)
    (idx : List Block) : List Block × List Block :=
  if b.strategy ≠ Strategy.bestFit then (l ++ b :: r, idx) else
  match r with
  | [] => coalescePrev l b [] (eraseByAddr b.addr idx)
  | n :: rest =>
    if n.isFree = true ∧ n.strategy = Strategy.bestFit ∧
        b.addr + headerSize + b.size = n.addr then
      coalescePrev l { b with size := b.size + n.size + headerSize } rest
        (eraseByAddr n.addr (eraseByAddr b.addr idx))
    else coalescePrev l b (n :: rest) (eraseByAddr b.addr idx)

/-- insert_free_block with the default arguments used at every call site
in the source (strategy BEST_FIT, coalescing allowed): stamp the block
free with the BestFit tag, link it in address order, add it to the size
index, then coalesce with its list neighbors. -/
def insertFreeBlock (s : PState) (b0 : Block) : PState :=
  let b : Block := { b0 with isFree := true, strategy := Strategy.bestFit }
  let l := (splitAtAddr b.addr s.freeList).1
  let r := (splitAtAddr b.addr s.freeList).2
  let idx := addToSizeIndex b s.sizeIndex
  let res := coalesceCtx l b r idx
  { s with freeList := res.1, sizeIndex := res.2 }

/-- detach_free_block: remove the block from the size index and unlink
it from the free list. -/
def detachFreeBlock (s : PState) (a : Nat) : PState :=
  { s with
      freeList := eraseByAddr a s.freeList
      sizeIndex := eraseByAddr a s.sizeIndex }

/-- MemoryPool::add_new_chunk: obtain a fresh POOL_SIZE chunk, lay a
single free block over it (MemoryBlock::init with the default BestFit
tag) and insert it. -/
def addNewChunk (s : PState) : PState :=
  let base := s.nextAddr
  insertFreeBlock
    { s with
        chunks := s.chunks ++ [base]
        nextAddr := base + POOL_SIZE + CHUNK_GAP }
    { addr := base, size := POOL_SIZE - headerSize,
      isFree := true, strategy := Strategy.bestFit }

/-- MIN_SPLIT_PAYLOAD in allocate_best_fit. -/
def MIN_SPLIT_PAYLOAD : Nat := 32

/-- The remainder block carved off by a split in allocate_best_fit
(MemoryBlock::init at payload(b) + size over the leftover bytes). -/
def splitRemainder (b0 : Block) (size : Nat) : Block :=
  { addr := b0.addr + headerSize + size,
    size := b0.size - size - headerSize,
    isFree := true, strategy := Strategy.bestFit }

/-- One lower_bound / detach / split round of allocate_best_fit. -/
def bestFitRound (s : PState) (size : Nat) : Option (Block × PState) :=
  match lowerBound size s.sizeIndex with
  | none => none
  | some b0 =>
    let s1 := detachFreeBlock s b0.addr
    if size + headerSize + MIN_SPLIT_PAYLOAD ≤ b0.size then
      let s2 := insertFreeBlock s1 (splitRemainder b0 size)
      some ({ b0 with size := size, isFree := false, strategy := Strategy.bestFit },
        s2)
    else
      some ({ b0 with isFree := false, strategy := Strategy.bestFit }, s1)

/-- MemoryPool::allocate_best_fit: best-fit lookup through the size
index with a single add_new_chunk retry, splitting when the leftover
can hold a header and a 32-byte payload.  The stats update is applied
by the facade wrapper. -/
def allocateBestFit (s : PState) (size : Nat) : Option (Block × PState) :=
  match lowerBound size s.sizeIndex with
  | some _ => bestFitRound s size
  | none => bestFitRound (addNewChunk s) size

/-- One lower_bound / detach round of allocate_from_pool (no split). -/
def poolRound (s : PState) (size : Nat) : Option (Block × PState) :=
  match lowerBound size s.sizeIndex with
  | none => none
  | some b0 =>
    some ({ b0 with isFree := false, strategy := Strategy.poolBased },
      detachFreeBlock s b0.addr)

/-- MemoryPool::allocate_from_pool: first qualifying block from the size
index, detached without splitting, with a single add_new_chunk retry. -/
def allocateFromPool (s : PState) (size : Nat) : Option (Block × PState) :=
  match lowerBound size s.sizeIndex with
  | some _ => poolRound s size
  | none => poolRound (addNewChunk s) size

/-! ## Pool invariants -/

/-- Strict separation of consecutive free-list blocks: no overlap and no
exact adjacency, hence strict address order and full coalescing. -/
def strictGaps (l : List Block) : Prop :=
  l.Chain' (fun x y => endA x < y.addr)

/-- Strictly increasing header addresses along the free list. -/
def sortedAddr (l : List Block) : Prop :=
  l.Chain' (fun x y => x.addr < y.addr)

/-- No two consecutive free-list blocks are physically adjacent. -/
def noAdj (l : List Block) : Prop :=
  l.Chain' (fun x y => endA x ≠ y.addr)

/-- The size index is in nondecreasing key order. -/
def idxSorted (l : List Block) : Prop :=
  l.Chain' (fun x y => x.size ≤ y.size)

/-- Everything on the free list is free and BestFit tagged. -/
def allFreeTag (l : List Block) : Prop :=
  ∀ b ∈ l, b.isFree = true ∧ b.strategy = Strategy.bestFit

/-- Well-formedness of the general pool state. -/
def PoolWF (s : PState) : Prop :=
  strictGaps s.freeList ∧ s.sizeIndex.Perm s.freeList ∧
  idxSorted s.sizeIndex ∧ allFreeTag s.freeList ∧
  ∀ b ∈ s.freeList, endA b < s.nextAddr

instance (l : List Block) : Decidable (strictGaps l) :=
  inferInstanceAs (Decidable (l.Chain' (fun x y : Block => endA x < y.addr)))

instance (l : List Block) : Decidable (sortedAddr l) :=
  inferInstanceAs (Decidable (l.Chain' (fun x y : Block => x.addr < y.addr)))

instance (l : List Block) : Decidable (noAdj l) :=
  inferInstanceAs (Decidable (l.Chain' (fun x y : Block => endA x ≠ y.addr)))

instance (l : List Block) : Decidable (idxSorted l) :=
  inferInstanceAs (Decidable (l.Chain' (fun x y : Block => x.size ≤ y.size)))

instance (l : List Block) : Decidable (allFreeTag l) :=
  inferInstanceAs
    (Decidable (∀ b ∈ l, b.isFree = true ∧ b.strategy = Strategy.bestFit))

instance (s : PState) : Decidable (PoolWF s) :=
  inferInstanceAs (Decidable (strictGaps s.freeList ∧
    s.sizeIndex.Perm s.freeList ∧ idxSorted s.sizeIndex ∧
    allFreeTag s.freeList ∧ ∀ b ∈ s.freeList, endA b < s.nextAddr))

/-! ## Lemmas about the list operations -/

theorem addr_lt_endA (b : Block) : b.addr < endA b := by
  unfold endA headerSize; omega

instance : IsTrans Block (fun x y => endA x < y.addr) := by
  constructor
  intro a b c hab hbc
  have h := addr_lt_endA b
  omega

instance : IsTrans Block (fun x y : Block => x.size ≤ y.size) := by
  constructor
  intro a b c hab hbc
  omega

theorem strictGaps_sortedAddr {l : List Block} (h : strictGaps l) : sortedAddr l :=
  h.imp fun a b hab => by
    have := addr_lt_endA a
    omega

theorem strictGaps_noAdj {l : List Block} (h : strictGaps l) : noAdj l :=
  h.imp fun a b hab => Nat.ne_of_lt hab

/-- Header addresses along a strictly separated list are pairwise
distinct. -/
def addrNodup (l : List Block) : Prop :=
  l.Pairwise (fun x y => x.addr ≠ y.addr)

theorem strictGaps_addrNodup {l : List Block} (h : strictGaps l) : addrNodup l := by
  have hp := List.chain'_iff_pairwise.mp h
  exact hp.imp fun {a b} hab => by
    have := addr_lt_endA a
    omega

theorem mem_addToSizeIndex {b x : Block} {l : List Block} :
    x ∈ addToSizeIndex b l ↔ x = b ∨ x ∈ l := by
  induction l with
  | nil => simp [addToSizeIndex]
  | cons y ys ih =>
    unfold addToSizeIndex
    split_ifs with h
    · rw [List.mem_cons, List.mem_cons, ih]
      tauto
    · rw [List.mem_cons, List.mem_cons]

theorem addToSizeIndex_perm (b : Block) (l : List Block) :
    (addToSizeIndex b l).Perm (b :: l) := by
  induction l with
  | nil => exact List.Perm.refl _
  | cons y ys ih =>
    unfold addToSizeIndex
    split_ifs with h
    · exact (ih.cons y).trans (List.Perm.swap b y ys)
    · exact List.Perm.refl _

theorem addToSizeIndex_head (b : Block) (l : List Block) :
    (addToSizeIndex b l).head? = some b ∨ (addToSizeIndex b l).head? = l.head? := by
  cases l with
  | nil => left; rfl
  | cons y ys =>
    unfold addToSizeIndex
    split_ifs with h
    · right; rfl
    · left; rfl

theorem addToSizeIndex_sorted {l : List Block} (b : Block) (h : idxSorted l) :
    idxSorted (addToSizeIndex b l) := by
  induction l with
  | nil => simp [addToSizeIndex, idxSorted]
  | cons y ys ih =>
    unfold addToSizeIndex
    split_ifs with hy
    · have htail : idxSorted (addToSizeIndex b ys) := ih h.tail
      refine List.chain'_cons'.mpr ⟨?_, htail⟩
      intro z hz
      rcases addToSizeIndex_head b ys with hh | hh
      · rw [hh] at hz
        rw [Option.mem_def, Option.some_inj] at hz
        subst hz
        omega
      · rw [hh] at hz
        exact (List.chain'_cons'.mp h).1 z hz
    · refine List.chain'_cons'.mpr ⟨?_, h⟩
      intro z hz
      rw [List.head?_cons, Option.mem_def, Option.some_inj] at hz
      subst hz
      omega

theorem eraseByAddr_sublist (a : Nat) (l : List Block) :
    (eraseByAddr a l).Sublist l := by
  induction l with
  | nil => simp [eraseByAddr]
  | cons x xs ih =>
    unfold eraseByAddr
    split_ifs with h
    · exact (List.sublist_cons_self x xs)
    · exact ih.cons₂ x

theorem mem_eraseByAddr {a : Nat} {x : Block} {l : List Block}
    (h : x ∈ eraseByAddr a l) : x ∈ l :=
  (eraseByAddr_sublist a l).mem h

theorem eraseByAddr_of_not_mem {a : Nat} {l : List Block}
    (h : ∀ x ∈ l, x.addr ≠ a) : eraseByAddr a l = l := by
  induction l with
  | nil => rfl
  | cons x xs ih =>
    unfold eraseByAddr
    rw [if_neg (h x (List.mem_cons_self x xs))]
    rw [ih fun y hy => h y (List.mem_cons_of_mem x hy)]

theorem eraseByAddr_addToSizeIndex {b : Block} {l : List Block}
    (h : ∀ x ∈ l, x.addr ≠ b.addr) :
    eraseByAddr b.addr (addToSizeIndex b l) = l := by
  induction l with
  | nil => simp [addToSizeIndex, eraseByAddr]
  | cons y ys ih =>
    unfold addToSizeIndex
    split_ifs with hy
    · unfold eraseByAddr
      rw [if_neg (h y (List.mem_cons_self y ys))]
      rw [ih fun x hx => h x (List.mem_cons_of_mem y hx)]
    · unfold eraseByAddr
      rw [if_pos rfl]

theorem eraseByAddr_append_mem {n : Block} {l rest : List Block}
    (h : ∀ x ∈ l, x.addr ≠ n.addr) :
    eraseByAddr n.addr (l ++ n :: rest) = l ++ rest := by
  induction l with
  | nil => simp [eraseByAddr]
  | cons x xs ih =>
    simp only [List.cons_append]
    unfold eraseByAddr
    rw [if_neg (h x (List.mem_cons_self x xs))]
    rw [ih fun y hy => h y (List.mem_cons_of_mem x hy)]

theorem eraseByAddr_eq_filter {a : Nat} {l : List Block} (h : addrNodup l) :
    eraseByAddr a l = l.filter (fun x => x.addr ≠ a) := by
  induction l with
  | nil => rfl
  | cons x xs ih =>
    by_cases hx : x.addr = a
    · have h1 : ∀ y ∈ xs, y.addr ≠ a := by
        intro y hy
        have := (List.pairwise_cons.mp h).1 y hy
        omega
      unfold eraseByAddr
      rw [if_pos hx, List.filter_cons]
      have hd : ¬ (decide (x.addr ≠ a) = true) := by simp [hx]
      rw [if_neg hd]
      exact (List.filter_eq_self.mpr fun y hy => by simpa using h1 y hy).symm
    · unfold eraseByAddr
      rw [if_neg hx, List.filter_cons]
      have hd : decide (x.addr ≠ a) = true := by simp [hx]
      rw [if_pos hd]
      rw [ih (List.Pairwise.of_cons h)]

theorem addrNodup_of_perm {l₁ l₂ : List Block} (p : l₁.Perm l₂)
    (h : addrNodup l₂) : addrNodup l₁ :=
  (p.pairwise_iff fun hab => by omega).mpr h

theorem perm_eraseByAddr {a : Nat} {l₁ l₂ : List Block} (p : l₁.Perm l₂)
    (h : addrNodup l₂) : (eraseByAddr a l₁).Perm (eraseByAddr a l₂) := by
  rw [eraseByAddr_eq_filter (addrNodup_of_perm p h), eraseByAddr_eq_filter h]
  exact p.filter _

theorem lowerBound_mem {size : Nat} {l : List Block} {b : Block}
    (h : lowerBound size l = some b) : b ∈ l ∧ size ≤ b.size := by
  induction l with
  | nil => simp [lowerBound] at h
  | cons x xs ih =>
    unfold lowerBound at h
    split_ifs at h with hx
    · obtain rfl := Option.some_inj.mp h
      exact ⟨List.mem_cons_self _ _, hx⟩
    · have := ih h
      exact ⟨List.mem_cons_of_mem x this.1, this.2⟩

theorem lowerBound_none_iff {size : Nat} {l : List Block} :
    lowerBound size l = none ↔ ∀ c ∈ l, c.size < size := by
  induction l with
  | nil => simp [lowerBound]
  | cons x xs ih =>
    unfold lowerBound
    split_ifs with hx
    · simp only [false_iff]
      intro hc
      have := hc x (List.mem_cons_self x xs)
      omega
    · rw [ih]
      constructor
      · intro hc c hm
        rcases List.mem_cons.mp hm with rfl | hm
        · omega
        · exact hc c hm
      · intro hc c hm
        exact hc c (List.mem_cons_of_mem x hm)

theorem lowerBound_min {size : Nat} {l : List Block} {b : Block}
    (hs : idxSorted l) (h : lowerBound size l = some b) :
    ∀ c ∈ l, size ≤ c.size → b.size ≤ c.size := by
  induction l with
  | nil => simp [lowerBound] at h
  | cons x xs ih =>
    unfold lowerBound at h
    split_ifs at h with hx
    · cases h
      intro c hc _
      rcases List.mem_cons.mp hc with rfl | hm
      · exact Nat.le_refl _
      · exact (List.pairwise_cons.mp (List.chain'_iff_pairwise.mp hs)).1 c hm
    · intro c hc hcs
      rcases List.mem_cons.mp hc with rfl | hm
      · omega
      · exact ih hs.tail h c hm hcs

theorem splitAtAddr_append (a : Nat) (l : List Block) :
    (splitAtAddr a l).1 ++ (splitAtAddr a l).2 = l :=
  List.takeWhile_append_dropWhile _ l

theorem mem_splitAtAddr_left {a : Nat} {x : Block} {l : List Block}
    (hx : x ∈ (splitAtAddr a l).1) : x.addr < a := by
  have := List.mem_takeWhile_imp hx
  simpa using this

theorem head_splitAtAddr_right {a : Nat} {y : Block} {l : List Block}
    (h : (splitAtAddr a l).2.head? = some y) : a ≤ y.addr := by
  unfold splitAtAddr at h
  simp only at h
  induction l with
  | nil => simp at h
  | cons x xs ih =>
    rw [List.dropWhile_cons] at h
    split at h
    · exact ih h
    · simp only [List.head?_cons, Option.some_inj] at h
      subst h
      simp_all

/-! ## Shape of insert_free_block -/

theorem coalescePrev_noMerge (l : List Block) (b1 : Block) (r1 idx2 : List Block)
    (hprev : ∀ p ∈ l.getLast?, p.addr + headerSize + p.size ≠ b1.addr) :
    coalescePrev l b1 r1 idx2 = (l ++ b1 :: r1, addToSizeIndex b1 idx2) := by
  unfold coalescePrev
  cases hL : l.getLast? with
  | none => rfl
  | some p =>
    dsimp only
    rw [if_neg ?_]
    intro hc
    exact hprev p (by rw [hL]; rfl) hc.2.2

theorem coalescePrev_merge (l : List Block) (b1 : Block) (r1 idx2 : List Block)
    (p : Block) (hL : l.getLast? = some p)
    (hfree : p.isFree = true) (htag : p.strategy = Strategy.bestFit)
    (hadj : p.addr + headerSize + p.size = b1.addr) :
    coalescePrev l b1 r1 idx2 =
      (l.dropLast ++ { p with size := p.size + b1.size + headerSize } :: r1,
        addToSizeIndex { p with size := p.size + b1.size + headerSize }
          (eraseByAddr p.addr idx2)) := by
  unfold coalescePrev
  rw [hL]
  dsimp only
  rw [if_pos ⟨hfree, htag, hadj⟩]

theorem insertFreeBlock_eq (s : PState) (b0 : Block)
    (hfresh : ∀ x ∈ s.sizeIndex, x.addr ≠ b0.addr) :
    insertFreeBlock s b0 =
      { s with
          freeList := (coalesceCtx (splitAtAddr b0.addr s.freeList).1
            { b0 with isFree := true, strategy := Strategy.bestFit }
            (splitAtAddr b0.addr s.freeList).2
            (addToSizeIndex { b0 with isFree := true, strategy := Strategy.bestFit }
              s.sizeIndex)).1
          sizeIndex := (coalesceCtx (splitAtAddr b0.addr s.freeList).1
            { b0 with isFree := true, strategy := Strategy.bestFit }
            (splitAtAddr b0.addr s.freeList).2
            (addToSizeIndex { b0 with isFree := true, strategy := Strategy.bestFit }
              s.sizeIndex)).2 } := rfl

theorem eraseByAddr_addToSizeIndex_stamped (s : PState) (b0 : Block)
    (hfresh : ∀ x ∈ s.sizeIndex, x.addr ≠ b0.addr) :
    eraseByAddr b0.addr
      (addToSizeIndex { b0 with isFree := true, strategy := Strategy.bestFit }
        s.sizeIndex) = s.sizeIndex :=
  eraseByAddr_addToSizeIndex
    (b := { b0 with isFree := true, strategy := Strategy.bestFit })
    (by simpa using hfresh)

theorem insertFreeBlock_noMerge (s : PState) (b0 : Block)
    (hfresh : ∀ x ∈ s.sizeIndex, x.addr ≠ b0.addr)
    (hnext : ∀ n ∈ (splitAtAddr b0.addr s.freeList).2.head?, endA b0 ≠ n.addr)
    (hprev : ∀ p ∈ (splitAtAddr b0.addr s.freeList).1.getLast?, endA p ≠ b0.addr) :
    (insertFreeBlock s b0).freeList =
      (splitAtAddr b0.addr s.freeList).1 ++
        { b0 with isFree := true, strategy := Strategy.bestFit } ::
          (splitAtAddr b0.addr s.freeList).2 ∧
    (insertFreeBlock s b0).sizeIndex =
      addToSizeIndex { b0 with isFree := true, strategy := Strategy.bestFit }
        s.sizeIndex := by
  rw [insertFreeBlock_eq s b0 hfresh]
  unfold coalesceCtx
  rw [if_neg (by simp)]
  have hp : ∀ p ∈ (splitAtAddr b0.addr s.freeList).1.getLast?,
      p.addr + headerSize + p.size ≠
        ({ b0 with isFree := true, strategy := Strategy.bestFit } : Block).addr := by
    intro p hpmem
    exact hprev p hpmem
  cases hR : (splitAtAddr b0.addr s.freeList).2 with
  | nil =>
    dsimp only
    rw [eraseByAddr_addToSizeIndex_stamped s b0 hfresh]
    rw [coalescePrev_noMerge _ _ _ _ hp]
    exact ⟨rfl, rfl⟩
  | cons n rest =>
    dsimp only
    have hcne : ¬(n.isFree = true ∧ n.strategy = Strategy.bestFit ∧
        b0.addr + headerSize + b0.size = n.addr) := by
      intro hc
      exact hnext n (by rw [hR]; rfl) hc.2.2
    rw [if_neg hcne]
    rw [eraseByAddr_addToSizeIndex_stamped s b0 hfresh]
    rw [coalescePrev_noMerge _ _ _ _ hp]
    exact ⟨rfl, rfl⟩

theorem insertFreeBlock_nextMerge (s : PState) (b0 : Block)
    (hfresh : ∀ x ∈ s.sizeIndex, x.addr ≠ b0.addr)
    (n : Block) (rest : List Block)
    (hR : (splitAtAddr b0.addr s.freeList).2 = n :: rest)
    (hnfree : n.isFree = true) (hntag : n.strategy = Strategy.bestFit)
    (hadj : b0.addr + headerSize + b0.size = n.addr)
    (hprev : ∀ p ∈ (splitAtAddr b0.addr s.freeList).1.getLast?, endA p ≠ b0.addr) :
    (insertFreeBlock s b0).freeList =
      (splitAtAddr b0.addr s.freeList).1 ++
        { b0 with size := b0.size + n.size + headerSize,
                  isFree := true, strategy := Strategy.bestFit } :: rest ∧
    (insertFreeBlock s b0).sizeIndex =
      addToSizeIndex
        { b0 with size := b0.size + n.size + headerSize,
                  isFree := true, strategy := Strategy.bestFit }
        (eraseByAddr n.addr s.sizeIndex) := by
  rw [insertFreeBlock_eq s b0 hfresh]
  unfold coalesceCtx
  rw [if_neg (by simp)]
  rw [hR]
  dsimp only
  rw [if_pos ⟨hnfree, hntag, hadj⟩]
  rw [eraseByAddr_addToSizeIndex_stamped s b0 hfresh]
  rw [coalescePrev_noMerge _
    { b0 with size := b0.size + n.size + headerSize,
              isFree := true, strategy := Strategy.bestFit } _ _
    (fun p hpmem => hprev p hpmem)]
  exact ⟨rfl, rfl⟩

theorem insertFreeBlock_prevMerge (s : PState) (b0 : Block)
    (hfresh : ∀ x ∈ s.sizeIndex, x.addr ≠ b0.addr)
    (p : Block)
    (hL : (splitAtAddr b0.addr s.freeList).1.getLast? = some p)
    (hpfree : p.isFree = true) (hptag : p.strategy = Strategy.bestFit)
    (hpadj : p.addr + headerSize + p.size = b0.addr)
    (hnext : ∀ n ∈ (splitAtAddr b0.addr s.freeList).2.head?, endA b0 ≠ n.addr) :
    (insertFreeBlock s b0).freeList =
      (splitAtAddr b0.addr s.freeList).1.dropLast ++
        { p with size := p.size + b0.size + headerSize } ::
          (splitAtAddr b0.addr s.freeList).2 ∧
    (insertFreeBlock s b0).sizeIndex =
      addToSizeIndex { p with size := p.size + b0.size + headerSize }
        (eraseByAddr p.addr s.sizeIndex) := by
  rw [insertFreeBlock_eq s b0 hfresh]
  unfold coalesceCtx
  rw [if_neg (by simp)]
  cases hR : (splitAtAddr b0.addr s.freeList).2 with
  | nil =>
    dsimp only
    rw [eraseByAddr_addToSizeIndex_stamped s b0 hfresh]
    rw [coalescePrev_merge _
      { b0 with isFree := true, strategy := Strategy.bestFit } _ _
      p hL hpfree hptag hpadj]
    exact ⟨rfl, rfl⟩
  | cons n rest =>
    dsimp only
    have hcne : ¬(n.isFree = true ∧ n.strategy = Strategy.bestFit ∧
        b0.addr + headerSize + b0.size = n.addr) := by
      intro hc
      exact hnext n (by rw [hR]; rfl) hc.2.2
    rw [if_neg hcne]
    rw [eraseByAddr_addToSizeIndex_stamped s b0 hfresh]
    rw [coalescePrev_merge _
      { b0 with isFree := true, strategy := Strategy.bestFit } _ _
      p hL hpfree hptag hpadj]
    exact ⟨rfl, rfl⟩

theorem insertFreeBlock_bothMerge (s : PState) (b0 : Block)
    (hfresh : ∀ x ∈ s.sizeIndex, x.addr ≠ b0.addr)
    (n : Block) (rest : List Block)
    (hR : (splitAtAddr b0.addr s.freeList).2 = n :: rest)
    (hnfree : n.isFree = true) (hntag : n.strategy = Strategy.bestFit)
    (hadj : b0.addr + headerSize + b0.size = n.addr)
    (p : Block)
    (hL : (splitAtAddr b0.addr s.freeList).1.getLast? = some p)
    (hpfree : p.isFree = true) (hptag : p.strategy = Strategy.bestFit)
    (hpadj : p.addr + headerSize + p.size = b0.addr) :
    (insertFreeBlock s b0).freeList =
      (splitAtAddr b0.addr s.freeList).1.dropLast ++
        { p with size := p.size + (b0.size + n.size + headerSize) + headerSize } ::
          rest ∧
    (insertFreeBlock s b0).sizeIndex =
      addToSizeIndex
        { p with size := p.size + (b0.size + n.size + headerSize) + headerSize }
        (eraseByAddr p.addr (eraseByAddr n.addr s.sizeIndex)) := by
  rw [insertFreeBlock_eq s b0 hfresh]
  unfold coalesceCtx
  rw [if_neg (by simp)]
  rw [hR]
  dsimp only
  rw [if_pos ⟨hnfree, hntag, hadj⟩]
  rw [eraseByAddr_addToSizeIndex_stamped s b0 hfresh]
  rw [coalescePrev_merge _
    { b0 with size := b0.size + n.size + headerSize,
              isFree := true, strategy := Strategy.bestFit } _ _
    p hL hpfree hptag hpadj]
  exact ⟨rfl, rfl⟩

/-! ## Facts about the insertion point -/

theorem insert_split_facts (s : PState) (b0 : Block)
    (hwf : PoolWF s)
    (hdisj : ∀ x ∈ s.freeList, endA x ≤ b0.addr ∨ endA b0 ≤ x.addr) :
    (∀ x ∈ (splitAtAddr b0.addr s.freeList).1, x.addr < b0.addr ∧ endA x ≤ b0.addr) ∧
    (∀ y ∈ (splitAtAddr b0.addr s.freeList).2, b0.addr ≤ y.addr ∧ endA b0 ≤ y.addr) ∧
    strictGaps (splitAtAddr b0.addr s.freeList).1 ∧
    strictGaps (splitAtAddr b0.addr s.freeList).2 ∧
    (∀ p ∈ (splitAtAddr b0.addr s.freeList).1.getLast?,
      ∀ y ∈ (splitAtAddr b0.addr s.freeList).2.head?, endA p < y.addr) ∧
    (∀ x ∈ s.freeList, x.addr ≠ b0.addr) ∧
    (∀ x ∈ s.sizeIndex, x.addr ≠ b0.addr) := by
  obtain ⟨hgap, hperm, hsort, hfree, hbnd⟩ := hwf
  have hsplit : (splitAtAddr b0.addr s.freeList).1 ++
      (splitAtAddr b0.addr s.freeList).2 = s.freeList := splitAtAddr_append _ _
  have hLsub : ∀ x ∈ (splitAtAddr b0.addr s.freeList).1, x ∈ s.freeList := by
    intro x hx
    rw [← hsplit]
    exact List.mem_append_left _ hx
  have hRsub : ∀ x ∈ (splitAtAddr b0.addr s.freeList).2, x ∈ s.freeList := by
    intro x hx
    rw [← hsplit]
    exact List.mem_append_right _ hx
  have hLfacts : ∀ x ∈ (splitAtAddr b0.addr s.freeList).1,
      x.addr < b0.addr ∧ endA x ≤ b0.addr := by
    intro x hx
    have h1 : x.addr < b0.addr := mem_splitAtAddr_left hx
    refine ⟨h1, ?_⟩
    rcases hdisj x (hLsub x hx) with h | h
    · exact h
    · have := addr_lt_endA b0
      omega
  have happ := List.chain'_append.mp (by rw [hsplit]; exact hgap :
    List.Chain' (fun x y => endA x < y.addr)
      ((splitAtAddr b0.addr s.freeList).1 ++ (splitAtAddr b0.addr s.freeList).2))
  have hRge : ∀ y ∈ (splitAtAddr b0.addr s.freeList).2, b0.addr ≤ y.addr := by
    intro y hy
    cases hR0 : (splitAtAddr b0.addr s.freeList).2 with
    | nil => rw [hR0] at hy; simp at hy
    | cons n rest =>
      have hhead : b0.addr ≤ n.addr := head_splitAtAddr_right (by rw [hR0]; rfl)
      rw [hR0] at hy
      rcases List.mem_cons.mp hy with rfl | hm
      · exact hhead
      · have hpR : ((splitAtAddr b0.addr s.freeList).2).Pairwise
            (fun x y => endA x < y.addr) := List.chain'_iff_pairwise.mp happ.2.1
        rw [hR0] at hpR
        have h2 := (List.pairwise_cons.mp hpR).1 y hm
        have := addr_lt_endA n
        omega
  have hRfacts : ∀ y ∈ (splitAtAddr b0.addr s.freeList).2,
      b0.addr ≤ y.addr ∧ endA b0 ≤ y.addr := by
    intro y hy
    refine ⟨hRge y hy, ?_⟩
    rcases hdisj y (hRsub y hy) with h | h
    · have h1 := hRge y hy
      have := addr_lt_endA y
      omega
    · exact h
  have hne : ∀ x ∈ s.freeList, x.addr ≠ b0.addr := by
    intro x hx heq
    rcases hdisj x hx with h | h
    · have := addr_lt_endA x
      omega
    · have := addr_lt_endA b0
      omega
  exact ⟨hLfacts, hRfacts, happ.1, happ.2.1, happ.2.2, hne,
    fun x hx => hne x (hperm.mem_iff.mp hx)⟩

theorem insert_prev_unique (s : PState) (b0 : Block)
    (hwf : PoolWF s)
    (hdisj : ∀ x ∈ s.freeList, endA x ≤ b0.addr ∨ endA b0 ≤ x.addr) :
    ∀ p ∈ s.freeList, endA p = b0.addr →
      (splitAtAddr b0.addr s.freeList).1.getLast? = some p := by
  obtain ⟨hLf, hRf, hgL, hgR, hLR, hne, hfr⟩ := insert_split_facts s b0 hwf hdisj
  intro p hp hpe
  have hplt : p.addr < b0.addr := by
    have := addr_lt_endA p
    omega
  have hsplit : (splitAtAddr b0.addr s.freeList).1 ++
      (splitAtAddr b0.addr s.freeList).2 = s.freeList := splitAtAddr_append _ _
  have hpL : p ∈ (splitAtAddr b0.addr s.freeList).1 := by
    rcases List.mem_append.mp (by rw [hsplit]; exact hp :
        p ∈ (splitAtAddr b0.addr s.freeList).1 ++ (splitAtAddr b0.addr s.freeList).2) with
      h | h
    · exact h
    · have := (hRf p h).1
      omega
  cases hLc : (splitAtAddr b0.addr s.freeList).1.getLast? with
  | none =>
    exfalso
    cases hL0 : (splitAtAddr b0.addr s.freeList).1 with
    | nil => rw [hL0] at hpL; simp at hpL
    | cons z zs => rw [hL0] at hLc; simp [List.getLast?_concat] at hLc
  | some q =>
    by_cases hpq : p = q
    · rw [hpq]
    · exfalso
      have hLdec : (splitAtAddr b0.addr s.freeList).1.dropLast ++ [q] =
          (splitAtAddr b0.addr s.freeList).1 :=
        List.dropLast_append_getLast? q (by rw [hLc]; rfl)
      have hpDL : p ∈ (splitAtAddr b0.addr s.freeList).1.dropLast := by
        rcases List.mem_append.mp (by rw [hLdec]; exact hpL :
            p ∈ (splitAtAddr b0.addr s.freeList).1.dropLast ++ [q]) with h | h
        · exact h
        · exact absurd (List.mem_singleton.mp h) hpq
      have hpw : ((splitAtAddr b0.addr s.freeList).1.dropLast ++ [q]).Pairwise
          (fun x y => endA x < y.addr) := by
        rw [hLdec]
        exact List.chain'_iff_pairwise.mp hgL
      have h2 := (List.pairwise_append.mp hpw).2.2 p hpDL q (List.mem_singleton_self q)
      have hqL : q ∈ (splitAtAddr b0.addr s.freeList).1 := by
        rw [← hLdec]
        exact List.mem_append_right _ (List.mem_singleton_self q)
      have := (hLf q hqL).1
      omega

theorem insert_next_unique (s : PState) (b0 : Block)
    (hwf : PoolWF s)
    (hdisj : ∀ x ∈ s.freeList, endA x ≤ b0.addr ∨ endA b0 ≤ x.addr) :
    ∀ n ∈ s.freeList, n.addr = endA b0 →
      (splitAtAddr b0.addr s.freeList).2.head? = some n := by
  obtain ⟨hLf, hRf, hgL, hgR, hLR, hne, hfr⟩ := insert_split_facts s b0 hwf hdisj
  intro n hn hne2
  have hngt : b0.addr < n.addr := by
    have := addr_lt_endA b0
    omega
  have hsplit : (splitAtAddr b0.addr s.freeList).1 ++
      (splitAtAddr b0.addr s.freeList).2 = s.freeList := splitAtAddr_append _ _
  have hnR : n ∈ (splitAtAddr b0.addr s.freeList).2 := by
    rcases List.mem_append.mp (by rw [hsplit]; exact hn :
        n ∈ (splitAtAddr b0.addr s.freeList).1 ++ (splitAtAddr b0.addr s.freeList).2) with
      h | h
    · have := (hLf n h).1
      omega
    · exact h
  cases hRc : (splitAtAddr b0.addr s.freeList).2 with
  | nil => rw [hRc] at hnR; simp at hnR
  | cons m rest =>
    by_cases hnm : n = m
    · rw [hnm]
      rfl
    · exfalso
      rw [hRc] at hnR
      rcases List.mem_cons.mp hnR with rfl | hm
      · exact hnm rfl
      · have hpR : ((splitAtAddr b0.addr s.freeList).2).Pairwise
            (fun x y => endA x < y.addr) := List.chain'_iff_pairwise.mp hgR
        rw [hRc] at hpR
        have h2 := (List.pairwise_cons.mp hpR).1 n hm
        have h3 := (hRf m (by rw [hRc]; exact List.mem_cons_self m rest)).2
        have := addr_lt_endA m
        omega

theorem mem_of_getLast?_eq {α : Type} {l : List α} {a : α}
    (h : l.getLast? = some a) : a ∈ l := by
  have hd := List.dropLast_append_getLast? a (by rw [h]; rfl)
  rw [← hd]
  exact List.mem_append_right _ (List.mem_singleton_self a)

theorem mem_of_head?_eq {α : Type} {l : List α} {a : α}
    (h : l.head? = some a) : a ∈ l := by
  cases l with
  | nil => simp at h
  | cons x xs =>
    rw [List.head?_cons, Option.some_inj] at h
    subst h
    exact List.mem_cons_self _ _

theorem insertFreeBlock_wf_noMerge (s : PState) (b0 : Block)
    (hwf : PoolWF s)
    (hdisj : ∀ x ∈ s.freeList, endA x ≤ b0.addr ∨ endA b0 ≤ x.addr)
    (hbound : endA b0 < s.nextAddr)
    (hnext : ∀ n ∈ (splitAtAddr b0.addr s.freeList).2.head?, endA b0 ≠ n.addr)
    (hprev : ∀ p ∈ (splitAtAddr b0.addr s.freeList).1.getLast?, endA p ≠ b0.addr) :
    PoolWF (insertFreeBlock s b0) ∧
    (insertFreeBlock s b0).chunks = s.chunks ∧
    (insertFreeBlock s b0).nextAddr = s.nextAddr ∧
    ∃ c ∈ (insertFreeBlock s b0).freeList,
      c.addr ≤ b0.addr ∧ endA b0 ≤ endA c ∧
      (c.addr < b0.addr ↔ ∃ p ∈ s.freeList, endA p = b0.addr) ∧
      (endA b0 < endA c ↔ ∃ n ∈ s.freeList, n.addr = endA b0) := by
  have hPU := insert_prev_unique s b0 hwf hdisj
  have hNU := insert_next_unique s b0 hwf hdisj
  obtain ⟨hLf, hRf, hgL, hgR, hLR, hneq, hfr⟩ := insert_split_facts s b0 hwf hdisj
  obtain ⟨hgap, hperm, hsort, hfree, hbnd⟩ := hwf
  obtain ⟨hfl, hidx⟩ := insertFreeBlock_noMerge s b0 hfr hnext hprev
  have hsplit := splitAtAddr_append b0.addr s.freeList
  have hLmem : ∀ x ∈ (splitAtAddr b0.addr s.freeList).1, x ∈ s.freeList := by
    intro x hx
    rw [← hsplit]
    exact List.mem_append_left _ hx
  have hRmem : ∀ x ∈ (splitAtAddr b0.addr s.freeList).2, x ∈ s.freeList := by
    intro x hx
    rw [← hsplit]
    exact List.mem_append_right _ hx
  have hchunks : (insertFreeBlock s b0).chunks = s.chunks := rfl
  have hnx : (insertFreeBlock s b0).nextAddr = s.nextAddr := rfl
  refine ⟨⟨?_, ?_, ?_, ?_, ?_⟩, hchunks, hnx, ?_⟩
  · -- strictGaps
    rw [hfl]
    refine List.chain'_append.mpr ⟨hgL, ?_, ?_⟩
    · refine List.chain'_cons'.mpr ⟨?_, hgR⟩
      intro y hy
      have h1 := (hRf y (mem_of_head?_eq hy)).2
      have h2 := hnext y hy
      show endA _ < y.addr
      have : endA { b0 with isFree := true, strategy := Strategy.bestFit } = endA b0 := rfl
      omega
    · intro p hp y hy
      rw [List.head?_cons, Option.mem_def, Option.some_inj] at hy
      subst hy
      have h1 := (hLf p (mem_of_getLast?_eq hp)).2
      have h2 := hprev p hp
      show endA p < b0.addr
      unfold endA at h1 h2 ⊢
      omega
  · -- size index permutation
    rw [hfl, hidx]
    refine (addToSizeIndex_perm _ _).trans ((hperm.cons _).trans ?_)
    have hm : ((splitAtAddr b0.addr s.freeList).1 ++
        { b0 with isFree := true, strategy := Strategy.bestFit } ::
          (splitAtAddr b0.addr s.freeList).2).Perm
        ({ b0 with isFree := true, strategy := Strategy.bestFit } ::
          ((splitAtAddr b0.addr s.freeList).1 ++ (splitAtAddr b0.addr s.freeList).2)) :=
      List.perm_middle
    rw [hsplit] at hm
    exact hm.symm
  · -- size index sorted
    rw [hidx]
    exact addToSizeIndex_sorted _ hsort
  · -- free and BestFit tagged
    rw [hfl]
    intro x hx
    rcases List.mem_append.mp hx with h | h
    · exact hfree x (hLmem x h)
    · rcases List.mem_cons.mp h with rfl | h
      · exact ⟨rfl, rfl⟩
      · exact hfree x (hRmem x h)
  · -- every free block stays below the next chunk address
    rw [hfl]
    intro x hx
    show endA x < s.nextAddr
    rcases List.mem_append.mp hx with h | h
    · exact hbnd x (hLmem x h)
    · rcases List.mem_cons.mp h with rfl | h
      · exact hbound
      · exact hbnd x (hRmem x h)
  · -- the covering block and the merge characterization
    refine ⟨{ b0 with isFree := true, strategy := Strategy.bestFit }, ?_, ?_, ?_, ?_, ?_⟩
    · rw [hfl]
      exact List.mem_append_right _ (List.mem_cons_self _ _)
    · exact Nat.le_refl _
    · exact Nat.le_refl _
    · constructor
      · intro h
        exact absurd h (Nat.lt_irrefl _)
      · rintro ⟨p, hp, hpe⟩
        exact absurd hpe (hprev p (by rw [hPU p hp hpe]; rfl))
    · constructor
      · intro h
        exact absurd h (Nat.lt_irrefl _)
      · rintro ⟨n, hn, hne2⟩
        exact absurd hne2.symm (hnext n (by rw [hNU n hn hne2]; rfl))

theorem insertFreeBlock_wf_nextMerge (s : PState) (b0 : Block)
    (hwf : PoolWF s)
    (hdisj : ∀ x ∈ s.freeList, endA x ≤ b0.addr ∨ endA b0 ≤ x.addr)
    (hbound : endA b0 < s.nextAddr)
    (n : Block) (rest : List Block)
    (hR : (splitAtAddr b0.addr s.freeList).2 = n :: rest)
    (hadj : b0.addr + headerSize + b0.size = n.addr)
    (hprev : ∀ p ∈ (splitAtAddr b0.addr s.freeList).1.getLast?, endA p ≠ b0.addr) :
    PoolWF (insertFreeBlock s b0) ∧
    (insertFreeBlock s b0).chunks = s.chunks ∧
    (insertFreeBlock s b0).nextAddr = s.nextAddr ∧
    ∃ c ∈ (insertFreeBlock s b0).freeList,
      c.addr ≤ b0.addr ∧ endA b0 ≤ endA c ∧
      (c.addr < b0.addr ↔ ∃ p ∈ s.freeList, endA p = b0.addr) ∧
      (endA b0 < endA c ↔ ∃ n ∈ s.freeList, n.addr = endA b0) := by
  have hPU := insert_prev_unique s b0 hwf hdisj
  obtain ⟨hLf, hRf, hgL, hgR, hLR, hneq, hfr⟩ := insert_split_facts s b0 hwf hdisj
  obtain ⟨hgap, hperm, hsort, hfree, hbnd⟩ := hwf
  have haN : addrNodup s.freeList := strictGaps_addrNodup hgap
  have hsplit := splitAtAddr_append b0.addr s.freeList
  have hLmem : ∀ x ∈ (splitAtAddr b0.addr s.freeList).1, x ∈ s.freeList := by
    intro x hx
    rw [← hsplit]
    exact List.mem_append_left _ hx
  have hRmem : ∀ x ∈ (splitAtAddr b0.addr s.freeList).2, x ∈ s.freeList := by
    intro x hx
    rw [← hsplit]
    exact List.mem_append_right _ hx
  have hnR : n ∈ (splitAtAddr b0.addr s.freeList).2 := by
    rw [hR]
    exact List.mem_cons_self _ _
  have hnfl : n ∈ s.freeList := hRmem n hnR
  obtain ⟨hnfree, hntag⟩ := hfree n hnfl
  obtain ⟨hfl, hidx⟩ := insertFreeBlock_nextMerge s b0 hfr n rest hR hnfree hntag hadj hprev
  have hbNe : endA ({ b0 with
      size := b0.size + n.size + headerSize
      isFree := true
      strategy := Strategy.bestFit } : Block) = endA n := by
    unfold endA
    dsimp only
    omega
  have hbNa : ({ b0 with
      size := b0.size + n.size + headerSize
      isFree := true
      strategy := Strategy.bestFit } : Block).addr = b0.addr := rfl
  have hflDec : s.freeList = (splitAtAddr b0.addr s.freeList).1 ++ n :: rest := by
    conv_lhs => rw [← hsplit, hR]
  have hLne : ∀ x ∈ (splitAtAddr b0.addr s.freeList).1, x.addr ≠ n.addr := by
    intro x hx
    have h1 := (hLf x hx).1
    have := addr_lt_endA b0
    unfold endA at this
    omega
  have hgRx := hgR
  rw [hR] at hgRx
  have hgRrest : List.Chain' (fun x y => endA x < y.addr) rest := hgRx.tail
  have hRhead : ∀ y ∈ rest.head?, endA n < y.addr := (List.chain'_cons'.mp hgRx).1
  have hrestmem : ∀ y ∈ rest, y ∈ s.freeList := by
    intro y hy
    exact hRmem y (by rw [hR]; exact List.mem_cons_of_mem n hy)
  have hchunks : (insertFreeBlock s b0).chunks = s.chunks := rfl
  have hnx : (insertFreeBlock s b0).nextAddr = s.nextAddr := rfl
  refine ⟨⟨?_, ?_, ?_, ?_, ?_⟩, hchunks, hnx, ?_⟩
  · -- strictGaps
    rw [hfl]
    refine List.chain'_append.mpr ⟨hgL, ?_, ?_⟩
    · refine List.chain'_cons'.mpr ⟨?_, hgRrest⟩
      intro y hy
      have h1 := hRhead y hy
      show endA _ < y.addr
      rw [hbNe]
      exact h1
    · intro p hp y hy
      rw [List.head?_cons, Option.mem_def, Option.some_inj] at hy
      subst hy
      have h1 := (hLf p (mem_of_getLast?_eq hp)).2
      have h2 := hprev p hp
      rw [hbNa]
      unfold endA at h1 h2 ⊢
      omega
  · -- size index permutation
    rw [hfl, hidx]
    refine (addToSizeIndex_perm _ _).trans ?_
    refine (List.Perm.cons _ (perm_eraseByAddr hperm haN)).trans ?_
    have he : eraseByAddr n.addr s.freeList =
        (splitAtAddr b0.addr s.freeList).1 ++ rest := by
      conv in s.freeList => rw [hflDec]
      exact eraseByAddr_append_mem hLne
    rw [he]
    exact List.perm_middle.symm
  · -- size index sorted
    rw [hidx]
    exact addToSizeIndex_sorted _ (List.Chain'.sublist hsort (eraseByAddr_sublist _ _))
  · -- free and BestFit tagged
    rw [hfl]
    intro x hx
    rcases List.mem_append.mp hx with h | h
    · exact hfree x (hLmem x h)
    · rcases List.mem_cons.mp h with rfl | h
      · exact ⟨rfl, rfl⟩
      · exact hfree x (hrestmem x h)
  · -- bounded by the next chunk address
    rw [hfl]
    intro x hx
    show endA x < s.nextAddr
    rcases List.mem_append.mp hx with h | h
    · exact hbnd x (hLmem x h)
    · rcases List.mem_cons.mp h with rfl | h
      · rw [hbNe]
        exact hbnd n hnfl
      · exact hbnd x (hrestmem x h)
  · -- covering block: b0 merged with its successor n
    refine ⟨{ b0 with
        size := b0.size + n.size + headerSize
        isFree := true
        strategy := Strategy.bestFit }, ?_, ?_, ?_, ?_, ?_⟩
    · rw [hfl]
      exact List.mem_append_right _ (List.mem_cons_self _ _)
    · rw [hbNa]
    · rw [hbNe]
      have := addr_lt_endA n
      unfold endA at this ⊢
      omega
    · rw [hbNa]
      constructor
      · intro h
        exact absurd h (Nat.lt_irrefl _)
      · rintro ⟨p, hp, hpe⟩
        exact absurd hpe (hprev p (by rw [hPU p hp hpe]; rfl))
    · constructor
      · intro _
        exact ⟨n, hnfl, by unfold endA; omega⟩
      · intro _
        rw [hbNe]
        have := addr_lt_endA n
        unfold endA at this ⊢
        omega

theorem insertFreeBlock_wf_prevMerge (s : PState) (b0 : Block)
    (hwf : PoolWF s)
    (hdisj : ∀ x ∈ s.freeList, endA x ≤ b0.addr ∨ endA b0 ≤ x.addr)
    (hbound : endA b0 < s.nextAddr)
    (p : Block)
    (hL : (splitAtAddr b0.addr s.freeList).1.getLast? = some p)
    (hpadj : p.addr + headerSize + p.size = b0.addr)
    (hnext : ∀ n ∈ (splitAtAddr b0.addr s.freeList).2.head?, endA b0 ≠ n.addr) :
    PoolWF (insertFreeBlock s b0) ∧
    (insertFreeBlock s b0).chunks = s.chunks ∧
    (insertFreeBlock s b0).nextAddr = s.nextAddr ∧
    ∃ c ∈ (insertFreeBlock s b0).freeList,
      c.addr ≤ b0.addr ∧ endA b0 ≤ endA c ∧
      (c.addr < b0.addr ↔ ∃ p ∈ s.freeList, endA p = b0.addr) ∧
      (endA b0 < endA c ↔ ∃ n ∈ s.freeList, n.addr = endA b0) := by
  have hNU := insert_next_unique s b0 hwf hdisj
  obtain ⟨hLf, hRf, hgL, hgR, hLR, hneq, hfr⟩ := insert_split_facts s b0 hwf hdisj
  obtain ⟨hgap, hperm, hsort, hfree, hbnd⟩ := hwf
  have haN : addrNodup s.freeList := strictGaps_addrNodup hgap
  have hsplit := splitAtAddr_append b0.addr s.freeList
  have hLmem : ∀ x ∈ (splitAtAddr b0.addr s.freeList).1, x ∈ s.freeList := by
    intro x hx
    rw [← hsplit]
    exact List.mem_append_left _ hx
  have hRmem : ∀ x ∈ (splitAtAddr b0.addr s.freeList).2, x ∈ s.freeList := by
    intro x hx
    rw [← hsplit]
    exact List.mem_append_right _ hx
  have hpL : p ∈ (splitAtAddr b0.addr s.freeList).1 := mem_of_getLast?_eq hL
  have hpfl : p ∈ s.freeList := hLmem p hpL
  obtain ⟨hpfree, hptag⟩ := hfree p hpfl
  obtain ⟨hfl, hidx⟩ := insertFreeBlock_prevMerge s b0 hfr p hL hpfree hptag hpadj hnext
  have hpMe : endA ({ p with size := p.size + b0.size + headerSize } : Block) =
      endA b0 := by
    unfold endA
    dsimp only
    omega
  have hpMa : ({ p with size := p.size + b0.size + headerSize } : Block).addr =
      p.addr := rfl
  have hLdec : (splitAtAddr b0.addr s.freeList).1.dropLast ++ [p] =
      (splitAtAddr b0.addr s.freeList).1 :=
    List.dropLast_append_getLast? p (by rw [hL]; rfl)
  have hgLx : List.Chain' (fun x y => endA x < y.addr)
      ((splitAtAddr b0.addr s.freeList).1.dropLast ++ [p]) := by
    rw [hLdec]
    exact hgL
  have hgDL := List.chain'_append.mp hgLx
  have hDLne : ∀ x ∈ (splitAtAddr b0.addr s.freeList).1.dropLast, x.addr ≠ p.addr := by
    have hpw : addrNodup ((splitAtAddr b0.addr s.freeList).1.dropLast ++ [p]) := by
      rw [hLdec]
      exact (strictGaps_addrNodup hgL)
    intro x hx
    exact (List.pairwise_append.mp hpw).2.2 x hx p (List.mem_singleton_self p)
  have hDLmem : ∀ x ∈ (splitAtAddr b0.addr s.freeList).1.dropLast,
      x ∈ (splitAtAddr b0.addr s.freeList).1 := by
    intro x hx
    rw [← hLdec]
    exact List.mem_append_left _ hx
  have hflDec : s.freeList = (splitAtAddr b0.addr s.freeList).1.dropLast ++
      p :: (splitAtAddr b0.addr s.freeList).2 := by
    conv_lhs => rw [← hsplit, ← hLdec]
    rw [List.append_assoc, List.singleton_append]
  have hchunks : (insertFreeBlock s b0).chunks = s.chunks := rfl
  have hnx : (insertFreeBlock s b0).nextAddr = s.nextAddr := rfl
  refine ⟨⟨?_, ?_, ?_, ?_, ?_⟩, hchunks, hnx, ?_⟩
  · -- strictGaps
    rw [hfl]
    refine List.chain'_append.mpr ⟨hgDL.1, ?_, ?_⟩
    · refine List.chain'_cons'.mpr ⟨?_, hgR⟩
      intro y hy
      have h1 := (hRf y (mem_of_head?_eq hy)).2
      have h2 := hnext y hy
      show endA _ < y.addr
      rw [hpMe]
      unfold endA at h1 h2 ⊢
      omega
    · intro q hq y hy
      rw [List.head?_cons, Option.mem_def, Option.some_inj] at hy
      subst hy
      have h2 := hgDL.2.2 q hq p (by rfl)
      rw [hpMa]
      exact h2
  · -- size index permutation
    rw [hfl, hidx]
    refine (addToSizeIndex_perm _ _).trans ?_
    refine (List.Perm.cons _ (perm_eraseByAddr hperm haN)).trans ?_
    have he : eraseByAddr p.addr s.freeList =
        (splitAtAddr b0.addr s.freeList).1.dropLast ++
          (splitAtAddr b0.addr s.freeList).2 := by
      conv in s.freeList => rw [hflDec]
      exact eraseByAddr_append_mem hDLne
    rw [he]
    exact List.perm_middle.symm
  · -- size index sorted
    rw [hidx]
    exact addToSizeIndex_sorted _ (List.Chain'.sublist hsort (eraseByAddr_sublist _ _))
  · -- free and BestFit tagged
    rw [hfl]
    intro x hx
    rcases List.mem_append.mp hx with h | h
    · exact hfree x (hLmem x (hDLmem x h))
    · rcases List.mem_cons.mp h with rfl | h
      · exact ⟨hpfree, hptag⟩
      · exact hfree x (hRmem x h)
  · -- bounded by the next chunk address
    rw [hfl]
    intro x hx
    show endA x < s.nextAddr
    rcases List.mem_append.mp hx with h | h
    · exact hbnd x (hLmem x (hDLmem x h))
    · rcases List.mem_cons.mp h with rfl | h
      · rw [hpMe]
        exact hbound
      · exact hbnd x (hRmem x h)
  · -- covering block: predecessor p absorbed b0
    refine ⟨{ p with size := p.size + b0.size + headerSize }, ?_, ?_, ?_, ?_, ?_⟩
    · rw [hfl]
      exact List.mem_append_right _ (List.mem_cons_self _ _)
    · rw [hpMa]
      exact Nat.le_of_lt (hLf p hpL).1
    · rw [hpMe]
    · rw [hpMa]
      constructor
      · intro _
        exact ⟨p, hpfl, by unfold endA; omega⟩
      · intro _
        exact (hLf p hpL).1
    · rw [hpMe]
      constructor
      · intro h
        exact absurd h (Nat.lt_irrefl _)
      · rintro ⟨m, hm, hme⟩
        exact absurd hme.symm (hnext m (by rw [hNU m hm hme]; rfl))

theorem insertFreeBlock_wf_bothMerge (s : PState) (b0 : Block)
    (hwf : PoolWF s)
    (hdisj : ∀ x ∈ s.freeList, endA x ≤ b0.addr ∨ endA b0 ≤ x.addr)
    (hbound : endA b0 < s.nextAddr)
    (n : Block) (rest : List Block)
    (hR : (splitAtAddr b0.addr s.freeList).2 = n :: rest)
    (hadj : b0.addr + headerSize + b0.size = n.addr)
    (p : Block)
    (hL : (splitAtAddr b0.addr s.freeList).1.getLast? = some p)
    (hpadj : p.addr + headerSize + p.size = b0.addr) :
    PoolWF (insertFreeBlock s b0) ∧
    (insertFreeBlock s b0).chunks = s.chunks ∧
    (insertFreeBlock s b0).nextAddr = s.nextAddr ∧
    ∃ c ∈ (insertFreeBlock s b0).freeList,
      c.addr ≤ b0.addr ∧ endA b0 ≤ endA c ∧
      (c.addr < b0.addr ↔ ∃ p ∈ s.freeList, endA p = b0.addr) ∧
      (endA b0 < endA c ↔ ∃ n ∈ s.freeList, n.addr = endA b0) := by
  obtain ⟨hLf, hRf, hgL, hgR, hLR, hneq, hfr⟩ := insert_split_facts s b0 hwf hdisj
  obtain ⟨hgap, hperm, hsort, hfree, hbnd⟩ := hwf
  have haN : addrNodup s.freeList := strictGaps_addrNodup hgap
  have hsplit := splitAtAddr_append b0.addr s.freeList
  have hLmem : ∀ x ∈ (splitAtAddr b0.addr s.freeList).1, x ∈ s.freeList := by
    intro x hx
    rw [← hsplit]
    exact List.mem_append_left _ hx
  have hRmem : ∀ x ∈ (splitAtAddr b0.addr s.freeList).2, x ∈ s.freeList := by
    intro x hx
    rw [← hsplit]
    exact List.mem_append_right _ hx
  have hnR : n ∈ (splitAtAddr b0.addr s.freeList).2 := by
    rw [hR]
    exact List.mem_cons_self _ _
  have hnfl : n ∈ s.freeList := hRmem n hnR
  obtain ⟨hnfree, hntag⟩ := hfree n hnfl
  have hpL : p ∈ (splitAtAddr b0.addr s.freeList).1 := mem_of_getLast?_eq hL
  have hpfl : p ∈ s.freeList := hLmem p hpL
  obtain ⟨hpfree, hptag⟩ := hfree p hpfl
  obtain ⟨hfl, hidx⟩ :=
    insertFreeBlock_bothMerge s b0 hfr n rest hR hnfree hntag hadj p hL hpfree hptag hpadj
  have hpMe : endA ({ p with
      size := p.size + (b0.size + n.size + headerSize) + headerSize } : Block) =
      endA n := by
    unfold endA
    dsimp only
    omega
  have hpMa : ({ p with
      size := p.size + (b0.size + n.size + headerSize) + headerSize } : Block).addr =
      p.addr := rfl
  have hLdec : (splitAtAddr b0.addr s.freeList).1.dropLast ++ [p] =
      (splitAtAddr b0.addr s.freeList).1 :=
    List.dropLast_append_getLast? p (by rw [hL]; rfl)
  have hgLx : List.Chain' (fun x y => endA x < y.addr)
      ((splitAtAddr b0.addr s.freeList).1.dropLast ++ [p]) := by
    rw [hLdec]
    exact hgL
  have hgDL := List.chain'_append.mp hgLx
  have hDLne : ∀ x ∈ (splitAtAddr b0.addr s.freeList).1.dropLast, x.addr ≠ p.addr := by
    have hpw : addrNodup ((splitAtAddr b0.addr s.freeList).1.dropLast ++ [p]) := by
      rw [hLdec]
      exact (strictGaps_addrNodup hgL)
    intro x hx
    exact (List.pairwise_append.mp hpw).2.2 x hx p (List.mem_singleton_self p)
  have hDLmem : ∀ x ∈ (splitAtAddr b0.addr s.freeList).1.dropLast,
      x ∈ (splitAtAddr b0.addr s.freeList).1 := by
    intro x hx
    rw [← hLdec]
    exact List.mem_append_left _ hx
  have hLne : ∀ x ∈ (splitAtAddr b0.addr s.freeList).1, x.addr ≠ n.addr := by
    intro x hx
    have h1 := (hLf x hx).1
    have := addr_lt_endA b0
    unfold endA at this
    omega
  have hflDec1 : s.freeList = (splitAtAddr b0.addr s.freeList).1 ++ n :: rest := by
    conv_lhs => rw [← hsplit, hR]
  have hgRx := hgR
  rw [hR] at hgRx
  have hgRrest : List.Chain' (fun x y => endA x < y.addr) rest := hgRx.tail
  have hRhead : ∀ y ∈ rest.head?, endA n < y.addr := (List.chain'_cons'.mp hgRx).1
  have hrestmem : ∀ y ∈ rest, y ∈ s.freeList := by
    intro y hy
    exact hRmem y (by rw [hR]; exact List.mem_cons_of_mem n hy)
  have hchunks : (insertFreeBlock s b0).chunks = s.chunks := rfl
  have hnx : (insertFreeBlock s b0).nextAddr = s.nextAddr := rfl
  refine ⟨⟨?_, ?_, ?_, ?_, ?_⟩, hchunks, hnx, ?_⟩
  · -- strictGaps
    rw [hfl]
    refine List.chain'_append.mpr ⟨hgDL.1, ?_, ?_⟩
    · refine List.chain'_cons'.mpr ⟨?_, hgRrest⟩
      intro y hy
      have h1 := hRhead y hy
      show endA _ < y.addr
      rw [hpMe]
      exact h1
    · intro q hq y hy
      rw [List.head?_cons, Option.mem_def, Option.some_inj] at hy
      subst hy
      have h2 := hgDL.2.2 q hq p (by rfl)
      rw [hpMa]
      exact h2
  · -- size index permutation
    rw [hfl, hidx]
    refine (addToSizeIndex_perm _ _).trans ?_
    have hstep1 : (eraseByAddr n.addr s.sizeIndex).Perm
        ((splitAtAddr b0.addr s.freeList).1 ++ rest) := by
      refine (perm_eraseByAddr hperm haN).trans ?_
      have he : eraseByAddr n.addr s.freeList =
          (splitAtAddr b0.addr s.freeList).1 ++ rest := by
        conv in s.freeList => rw [hflDec1]
        exact eraseByAddr_append_mem hLne
      rw [he]
    have haN2 : addrNodup ((splitAtAddr b0.addr s.freeList).1 ++ rest) := by
      have hsub : ((splitAtAddr b0.addr s.freeList).1 ++ rest).Sublist
          ((splitAtAddr b0.addr s.freeList).1 ++ n :: rest) :=
        List.Sublist.append_left (List.sublist_cons_self n rest) _
      have haNx : addrNodup ((splitAtAddr b0.addr s.freeList).1 ++ n :: rest) := by
        rw [← hflDec1]
        exact haN
      exact haNx.sublist hsub
    have hstep2 : (eraseByAddr p.addr (eraseByAddr n.addr s.sizeIndex)).Perm
        ((splitAtAddr b0.addr s.freeList).1.dropLast ++ rest) := by
      refine (perm_eraseByAddr hstep1 haN2).trans ?_
      have he2 : eraseByAddr p.addr ((splitAtAddr b0.addr s.freeList).1 ++ rest) =
          (splitAtAddr b0.addr s.freeList).1.dropLast ++ rest := by
        conv in (splitAtAddr b0.addr s.freeList).1 ++ rest =>
          rw [← hLdec, List.append_assoc, List.singleton_append]
        exact eraseByAddr_append_mem hDLne
      rw [he2]
    refine (List.Perm.cons _ hstep2).trans ?_
    exact List.perm_middle.symm
  · -- size index sorted
    rw [hidx]
    exact addToSizeIndex_sorted _
      (List.Chain'.sublist (List.Chain'.sublist hsort (eraseByAddr_sublist _ _))
        (eraseByAddr_sublist _ _))
  · -- free and BestFit tagged
    rw [hfl]
    intro x hx
    rcases List.mem_append.mp hx with h | h
    · exact hfree x (hLmem x (hDLmem x h))
    · rcases List.mem_cons.mp h with rfl | h
      · exact ⟨hpfree, hptag⟩
      · exact hfree x (hrestmem x h)
  · -- bounded by the next chunk address
    rw [hfl]
    intro x hx
    show endA x < s.nextAddr
    rcases List.mem_append.mp hx with h | h
    · exact hbnd x (hLmem x (hDLmem x h))
    · rcases List.mem_cons.mp h with rfl | h
      · rw [hpMe]
        exact hbnd n hnfl
      · exact hbnd x (hrestmem x h)
  · -- covering block: p absorbed b0 and n
    refine ⟨{ p with
        size := p.size + (b0.size + n.size + headerSize) + headerSize }, ?_, ?_, ?_, ?_, ?_⟩
    · rw [hfl]
      exact List.mem_append_right _ (List.mem_cons_self _ _)
    · rw [hpMa]
      exact Nat.le_of_lt (hLf p hpL).1
    · rw [hpMe]
      have := addr_lt_endA n
      unfold endA at this ⊢
      omega
    · rw [hpMa]
      constructor
      · intro _
        exact ⟨p, hpfl, by unfold endA; omega⟩
      · intro _
        exact (hLf p hpL).1
    · rw [hpMe]
      constructor
      · intro _
        exact ⟨n, hnfl, by unfold endA; omega⟩
      · intro _
        have := addr_lt_endA n
        unfold endA at this ⊢
        omega

/-- Master lemma for inserting a block that does not overlap any free
block: insert_free_block preserves the pool invariants, and the
resulting free list contains a block covering the inserted one that has
grown to the left or right exactly when a physically adjacent free
block existed on that side. -/
theorem insertFreeBlock_wf (s : PState) (b0 : Block)
    (hwf : PoolWF s)
    (hdisj : ∀ x ∈ s.freeList, endA x ≤ b0.addr ∨ endA b0 ≤ x.addr)
    (hbound : endA b0 < s.nextAddr) :
    PoolWF (insertFreeBlock s b0) ∧
    (insertFreeBlock s b0).chunks = s.chunks ∧
    (insertFreeBlock s b0).nextAddr = s.nextAddr ∧
    ∃ c ∈ (insertFreeBlock s b0).freeList,
      c.addr ≤ b0.addr ∧ endA b0 ≤ endA c ∧
      (c.addr < b0.addr ↔ ∃ p ∈ s.freeList, endA p = b0.addr) ∧
      (endA b0 < endA c ↔ ∃ n ∈ s.freeList, n.addr = endA b0) := by
  cases hR : (splitAtAddr b0.addr s.freeList).2 with
  | nil =>
    cases hL : (splitAtAddr b0.addr s.freeList).1.getLast? with
    | none =>
      exact insertFreeBlock_wf_noMerge s b0 hwf hdisj hbound
        (fun n hn => by rw [hR] at hn; simp at hn)
        (fun p hp => by rw [hL] at hp; simp at hp)
    | some p =>
      by_cases hadjP : p.addr + headerSize + p.size = b0.addr
      · exact insertFreeBlock_wf_prevMerge s b0 hwf hdisj hbound p hL hadjP
          (fun n hn => by rw [hR] at hn; simp at hn)
      · refine insertFreeBlock_wf_noMerge s b0 hwf hdisj hbound
          (fun n hn => by rw [hR] at hn; simp at hn) ?_
        intro q hq
        rw [hL, Option.mem_def, Option.some_inj] at hq
        subst hq
        exact fun hc => hadjP hc
  | cons n rest =>
    by_cases hadjN : b0.addr + headerSize + b0.size = n.addr
    · cases hL : (splitAtAddr b0.addr s.freeList).1.getLast? with
      | none =>
        exact insertFreeBlock_wf_nextMerge s b0 hwf hdisj hbound n rest hR hadjN
          (fun p hp => by rw [hL] at hp; simp at hp)
      | some p =>
        by_cases hadjP : p.addr + headerSize + p.size = b0.addr
        · exact insertFreeBlock_wf_bothMerge s b0 hwf hdisj hbound n rest hR hadjN
            p hL hadjP
        · refine insertFreeBlock_wf_nextMerge s b0 hwf hdisj hbound n rest hR hadjN ?_
          intro q hq
          rw [hL, Option.mem_def, Option.some_inj] at hq
          subst hq
          exact fun hc => hadjP hc
    · cases hL : (splitAtAddr b0.addr s.freeList).1.getLast? with
      | none =>
        refine insertFreeBlock_wf_noMerge s b0 hwf hdisj hbound ?_
          (fun p hp => by rw [hL] at hp; simp at hp)
        intro m hm
        rw [hR, List.head?_cons, Option.mem_def, Option.some_inj] at hm
        subst hm
        exact fun hc => hadjN hc
      | some p =>
        by_cases hadjP : p.addr + headerSize + p.size = b0.addr
        · refine insertFreeBlock_wf_prevMerge s b0 hwf hdisj hbound p hL hadjP ?_
          intro m hm
          rw [hR, List.head?_cons, Option.mem_def, Option.some_inj] at hm
          subst hm
          exact fun hc => hadjN hc
        · refine insertFreeBlock_wf_noMerge s b0 hwf hdisj hbound ?_ ?_
          · intro m hm
            rw [hR, List.head?_cons, Option.mem_def, Option.some_inj] at hm
            subst hm
            exact fun hc => hadjN hc
          · intro q hq
            rw [hL, Option.mem_def, Option.some_inj] at hq
            subst hq
            exact fun hc => hadjP hc

/-- The single free block laid over a fresh chunk by MemoryBlock::init. -/
def chunkBlock (base : Nat) : Block :=
  { addr := base, size := POOL_SIZE - headerSize,
    isFree := true, strategy := Strategy.bestFit }

theorem splitAtAddr_all_lt {a : Nat} {l : List Block}
    (h : ∀ x ∈ l, x.addr < a) :
    (splitAtAddr a l).1 = l ∧ (splitAtAddr a l).2 = [] := by
  unfold splitAtAddr
  constructor
  · rw [List.takeWhile_eq_self_iff]
    intro x hx
    simpa using h x hx
  · rw [List.dropWhile_eq_nil_iff]
    intro x hx
    simpa using h x hx

/-- Appending a block past the end of every free block: insert_free_block
degenerates to appending at the tail, no coalescing. -/
theorem insertFreeBlock_append (s : PState) (b0 : Block)
    (hb0 : b0.isFree = true ∧ b0.strategy = Strategy.bestFit)
    (hfresh : ∀ x ∈ s.sizeIndex, x.addr ≠ b0.addr)
    (hall : ∀ x ∈ s.freeList, endA x < b0.addr) :
    (insertFreeBlock s b0).freeList = s.freeList ++ [b0] ∧
    (insertFreeBlock s b0).sizeIndex = addToSizeIndex b0 s.sizeIndex := by
  have hlt : ∀ x ∈ s.freeList, x.addr < b0.addr := by
    intro x hx
    have h1 := hall x hx
    have := addr_lt_endA x
    omega
  obtain ⟨hT, hD⟩ := splitAtAddr_all_lt hlt
  have hres := insertFreeBlock_noMerge s b0 hfresh
    (fun n hn => by rw [hD] at hn; simp at hn)
    (fun p hp => by
      rw [hT] at hp
      exact Nat.ne_of_lt (hall p (mem_of_getLast?_eq hp)))
  have hstamp : ({ b0 with isFree := true, strategy := Strategy.bestFit } : Block)
      = b0 := by
    obtain ⟨h1, h2⟩ := hb0
    cases b0
    simp_all
  rw [hT, hD, hstamp] at hres
  exact hres

theorem addNewChunk_wf (s : PState) (hwf : PoolWF s) :
    PoolWF (addNewChunk s) ∧
    (addNewChunk s).freeList = s.freeList ++ [chunkBlock s.nextAddr] ∧
    (addNewChunk s).sizeIndex = addToSizeIndex (chunkBlock s.nextAddr) s.sizeIndex ∧
    (addNewChunk s).chunks = s.chunks ++ [s.nextAddr] ∧
    (addNewChunk s).nextAddr = s.nextAddr + POOL_SIZE + CHUNK_GAP := by
  obtain ⟨hgap, hperm, hsort, hfree, hbnd⟩ := hwf
  have hwf1 : PoolWF { s with
      chunks := s.chunks ++ [s.nextAddr]
      nextAddr := s.nextAddr + POOL_SIZE + CHUNK_GAP } := by
    refine ⟨hgap, hperm, hsort, hfree, ?_⟩
    intro x hx
    have := hbnd x hx
    show endA x < s.nextAddr + POOL_SIZE + CHUNK_GAP
    omega
  have hdisj : ∀ x ∈ s.freeList, endA x ≤ (chunkBlock s.nextAddr).addr ∨
      endA (chunkBlock s.nextAddr) ≤ x.addr := by
    intro x hx
    exact Or.inl (Nat.le_of_lt (hbnd x hx))
  have hbound1 : endA (chunkBlock s.nextAddr) <
      s.nextAddr + POOL_SIZE + CHUNK_GAP := by
    unfold endA chunkBlock POOL_SIZE headerSize CHUNK_GAP
    dsimp only
    omega
  have hw := insertFreeBlock_wf
    { s with
        chunks := s.chunks ++ [s.nextAddr]
        nextAddr := s.nextAddr + POOL_SIZE + CHUNK_GAP }
    (chunkBlock s.nextAddr) hwf1 hdisj hbound1
  have hfresh : ∀ x ∈ s.sizeIndex, x.addr ≠ (chunkBlock s.nextAddr).addr := by
    intro x hx
    have h1 := hbnd x (hperm.mem_iff.mp hx)
    have := addr_lt_endA x
    show x.addr ≠ s.nextAddr
    omega
  have hshape := insertFreeBlock_append
    { s with
        chunks := s.chunks ++ [s.nextAddr]
        nextAddr := s.nextAddr + POOL_SIZE + CHUNK_GAP }
    (chunkBlock s.nextAddr) ⟨rfl, rfl⟩ hfresh
    (fun x hx => hbnd x hx)
  exact ⟨hw.1, hshape.1, hshape.2, rfl, rfl⟩

theorem detachFreeBlock_wf (s : PState) (a : Nat) (hwf : PoolWF s) :
    PoolWF (detachFreeBlock s a) := by
  obtain ⟨hgap, hperm, hsort, hfree, hbnd⟩ := hwf
  have haN : addrNodup s.freeList := strictGaps_addrNodup hgap
  refine ⟨List.Chain'.sublist hgap (eraseByAddr_sublist _ _),
    perm_eraseByAddr hperm haN,
    List.Chain'.sublist hsort (eraseByAddr_sublist _ _), ?_, ?_⟩
  · intro b hb
    exact hfree b (mem_eraseByAddr hb)
  · intro b hb
    exact hbnd b (mem_eraseByAddr hb)

theorem strictGaps_mem_disj {l : List Block} (hg : strictGaps l)
    {b : Block} (hb : b ∈ l) :
    ∀ x ∈ l, x.addr ≠ b.addr → endA x < b.addr ∨ endA b < x.addr := by
  obtain ⟨u, v, huv⟩ := List.append_of_mem hb
  subst huv
  have hp := List.chain'_iff_pairwise.mp hg
  intro x hx hxne
  rcases List.mem_append.mp hx with h | h
  · exact Or.inl ((List.pairwise_append.mp hp).2.2 x h b (List.mem_cons_self b v))
  · rcases List.mem_cons.mp h with rfl | h
    · exact absurd rfl hxne
    · have hpv := (List.pairwise_append.mp hp).2.1
      exact Or.inr ((List.pairwise_cons.mp hpv).1 x h)

theorem mem_eraseByAddr_ne {a : Nat} {l : List Block} (hN : addrNodup l) :
    ∀ x ∈ eraseByAddr a l, x.addr ≠ a := by
  induction l with
  | nil => simp [eraseByAddr]
  | cons y ys ih =>
    unfold eraseByAddr
    split_ifs with hy
    · intro x hx
      have h1 := (List.pairwise_cons.mp hN).1 x hx
      omega
    · intro x hx
      rcases List.mem_cons.mp hx with rfl | hx
      · exact hy
      · exact ih (List.Pairwise.of_cons hN) x hx

theorem splitRemainder_endA {b0 : Block} {req : Nat}
    (h : req + headerSize + MIN_SPLIT_PAYLOAD ≤ b0.size) :
    endA (splitRemainder b0 req) = endA b0 ∧
    (splitRemainder b0 req).addr = b0.addr + headerSize + req ∧
    b0.addr + headerSize + req ≤ endA b0 := by
  unfold endA splitRemainder headerSize MIN_SPLIT_PAYLOAD at *
  dsimp only
  omega

theorem bestFitRound_spec (s1 : PState) (req : Nat) (hwf : PoolWF s1)
    (b0 : Block) (hlb : lowerBound req s1.sizeIndex = some b0) :
    ∃ b s2, bestFitRound s1 req = some (b, s2) ∧
      b.addr = b0.addr ∧ b.isFree = false ∧ b.strategy = Strategy.bestFit ∧
      PoolWF s2 ∧
      ((req + headerSize + MIN_SPLIT_PAYLOAD ≤ b0.size ∧ b.size = req ∧
        splitRemainder b0 req ∈ s2.freeList ∧ splitRemainder b0 req ∈ s2.sizeIndex) ∨
       (b0.size < req + headerSize + MIN_SPLIT_PAYLOAD ∧ b.size = b0.size ∧
        s2.freeList = eraseByAddr b0.addr s1.freeList ∧
        s2.sizeIndex = eraseByAddr b0.addr s1.sizeIndex)) := by
  obtain ⟨hbm, hbs⟩ := lowerBound_mem hlb
  have hb0fl : b0 ∈ s1.freeList := hwf.2.1.mem_iff.mp hbm
  have hdet := detachFreeBlock_wf s1 b0.addr hwf
  have haN : addrNodup s1.freeList := strictGaps_addrNodup hwf.1
  have hdisjb0 := strictGaps_mem_disj hwf.1 hb0fl
  unfold bestFitRound
  rw [hlb]
  dsimp only
  split_ifs with hsplitc
  · -- split: a remainder block is carved and reinserted
    obtain ⟨hremE, hremA, hremLe⟩ := splitRemainder_endA hsplitc
    have hmem2 : ∀ x ∈ (detachFreeBlock s1 b0.addr).freeList,
        x ∈ s1.freeList ∧ x.addr ≠ b0.addr := by
      intro x hx
      exact ⟨mem_eraseByAddr hx, mem_eraseByAddr_ne haN x hx⟩
    have hdisj2 : ∀ x ∈ (detachFreeBlock s1 b0.addr).freeList,
        endA x ≤ (splitRemainder b0 req).addr ∨
        endA (splitRemainder b0 req) ≤ x.addr := by
      intro x hx
      obtain ⟨hxf, hxne⟩ := hmem2 x hx
      rcases hdisjb0 x hxf hxne with h | h
      · left
        omega
      · right
        omega
    have hside : ∀ x ∈ (detachFreeBlock s1 b0.addr).freeList,
        endA x ≠ (splitRemainder b0 req).addr ∧
        endA (splitRemainder b0 req) ≠ x.addr := by
      intro x hx
      obtain ⟨hxf, hxne⟩ := hmem2 x hx
      have hx1 := addr_lt_endA x
      have hx2 := addr_lt_endA b0
      rcases hdisjb0 x hxf hxne with h | h
      · constructor
        · omega
        · intro hc
          rw [hremE] at hc
          unfold endA at h hc hx1 hx2
          omega
      · constructor
        · omega
        · intro hc
          rw [hremE] at hc
          unfold endA at h hc hx1 hx2
          omega
    have hfresh2 : ∀ x ∈ (detachFreeBlock s1 b0.addr).sizeIndex,
        x.addr ≠ (splitRemainder b0 req).addr := by
      intro x hx
      have hxf : x ∈ s1.freeList :=
        hwf.2.1.mem_iff.mp (mem_eraseByAddr hx)
      have hxne : x.addr ≠ b0.addr :=
        mem_eraseByAddr_ne (addrNodup_of_perm hwf.2.1 (strictGaps_addrNodup hwf.1)) x hx
      have hx1 := addr_lt_endA x
      rcases hdisjb0 x hxf hxne with h | h
      · omega
      · intro hc
        unfold endA at h hx1
        omega
    have hbound2 : endA (splitRemainder b0 req) <
        (detachFreeBlock s1 b0.addr).nextAddr := by
      rw [hremE]
      exact hwf.2.2.2.2 b0 hb0fl
    obtain ⟨hfl, hidx⟩ := insertFreeBlock_noMerge (detachFreeBlock s1 b0.addr)
      (splitRemainder b0 req) hfresh2
      (fun n hn =>
        (hside n (by
          rw [← splitAtAddr_append (splitRemainder b0 req).addr
            (detachFreeBlock s1 b0.addr).freeList]
          exact List.mem_append_right _ (mem_of_head?_eq hn))).2)
      (fun p hp =>
        (hside p (by
          rw [← splitAtAddr_append (splitRemainder b0 req).addr
            (detachFreeBlock s1 b0.addr).freeList]
          exact List.mem_append_left _ (mem_of_getLast?_eq hp))).1)
    have hwf2 := (insertFreeBlock_wf (detachFreeBlock s1 b0.addr)
      (splitRemainder b0 req) hdet hdisj2 hbound2).1
    have hstamp : ({ splitRemainder b0 req with
        isFree := true, strategy := Strategy.bestFit } : Block) =
        splitRemainder b0 req := rfl
    refine ⟨_, _, rfl, rfl, rfl, rfl, hwf2, Or.inl ⟨hsplitc, rfl, ?_, ?_⟩⟩
    · rw [hfl, hstamp]
      exact List.mem_append_right _ (List.mem_cons_self _ _)
    · rw [hidx, hstamp]
      exact mem_addToSizeIndex.mpr (Or.inl rfl)
  · -- no split: the block is handed out whole
    refine ⟨_, _, rfl, rfl, rfl, rfl, hdet, Or.inr ⟨by omega, rfl, rfl, rfl⟩⟩

/-- C3: best-fit allocation selects the free block with the smallest
size at least the aligned request through the size index (acquiring one
fresh chunk and retrying once when none qualifies, null if still none);
it splits exactly when the chosen block's size is at least the request
plus a header plus the 32-byte minimum split payload, in which case the
returned block's size becomes exactly the request and the remainder
block covering the rest is inserted into the free list and the size
index; otherwise the chosen block's size is left untouched. -/
theorem c3_best_fit_selection_split (s : PState) (req : Nat) (hwf : PoolWF s) :
    (allocateBestFit s req = none ↔
      ∀ c ∈ (addNewChunk s).sizeIndex, c.size < req) ∧
    (∀ b s2, allocateBestFit s req = some (b, s2) →
      ∃ s1 b0, (s1 = s ∨ s1 = addNewChunk s) ∧
        lowerBound req s1.sizeIndex = some b0 ∧
        b0 ∈ s1.sizeIndex ∧ req ≤ b0.size ∧
        (∀ c ∈ s1.sizeIndex, req ≤ c.size → b0.size ≤ c.size) ∧
        b.addr = b0.addr ∧ b.isFree = false ∧ b.strategy = Strategy.bestFit ∧
        PoolWF s2 ∧
        ((req + headerSize + MIN_SPLIT_PAYLOAD ≤ b0.size ∧ b.size = req ∧
          splitRemainder b0 req ∈ s2.freeList ∧
          splitRemainder b0 req ∈ s2.sizeIndex) ∨
         (b0.size < req + headerSize + MIN_SPLIT_PAYLOAD ∧ b.size = b0.size ∧
          s2.freeList = eraseByAddr b0.addr s1.freeList ∧
          s2.sizeIndex = eraseByAddr b0.addr s1.sizeIndex))) := by
  have hwfA := (addNewChunk_wf s hwf).1
  have hidxA := (addNewChunk_wf s hwf).2.2.1
  constructor
  · cases h1 : lowerBound req s.sizeIndex with
    | some b0 =>
      obtain ⟨b, s2, hr, _⟩ := bestFitRound_spec s req hwf b0 h1
      unfold allocateBestFit
      rw [h1]
      dsimp only
      rw [hr]
      constructor
      · intro hc
        simp at hc
      · intro hall
        exfalso
        obtain ⟨hbm, hbs⟩ := lowerBound_mem h1
        have hmem : b0 ∈ (addNewChunk s).sizeIndex := by
          rw [hidxA]
          exact mem_addToSizeIndex.mpr (Or.inr hbm)
        have := hall b0 hmem
        omega
    | none =>
      unfold allocateBestFit
      rw [h1]
      dsimp only
      cases h2 : lowerBound req (addNewChunk s).sizeIndex with
      | some b0 =>
        obtain ⟨b, s2, hr, _⟩ := bestFitRound_spec (addNewChunk s) req hwfA b0 h2
        rw [hr]
        constructor
        · intro hc
          simp at hc
        · intro hall
          exfalso
          obtain ⟨hbm, hbs⟩ := lowerBound_mem h2
          have := hall b0 hbm
          omega
      | none =>
        have hnone : bestFitRound (addNewChunk s) req = none := by
          unfold bestFitRound
          rw [h2]
        rw [hnone]
        simp only [true_iff]
        exact lowerBound_none_iff.mp h2
  · intro b s2 hres
    unfold allocateBestFit at hres
    cases h1 : lowerBound req s.sizeIndex with
    | some b0 =>
      rw [h1] at hres
      dsimp only at hres
      obtain ⟨b2, s3, hr, ha, hf, hst, hw2, hsh⟩ := bestFitRound_spec s req hwf b0 h1
      rw [hr] at hres
      rw [Option.some_inj, Prod.mk.injEq] at hres
      obtain ⟨rfl, rfl⟩ := hres
      exact ⟨s, b0, Or.inl rfl, h1, (lowerBound_mem h1).1, (lowerBound_mem h1).2,
        lowerBound_min hwf.2.2.1 h1, ha, hf, hst, hw2, hsh⟩
    | none =>
      rw [h1] at hres
      dsimp only at hres
      cases h2 : lowerBound req (addNewChunk s).sizeIndex with
      | some b0 =>
        obtain ⟨b2, s3, hr, ha, hf, hst, hw2, hsh⟩ :=
          bestFitRound_spec (addNewChunk s) req hwfA b0 h2
        rw [hr] at hres
        rw [Option.some_inj, Prod.mk.injEq] at hres
        obtain ⟨rfl, rfl⟩ := hres
        exact ⟨addNewChunk s, b0, Or.inr rfl, h2, (lowerBound_mem h2).1,
          (lowerBound_mem h2).2, lowerBound_min hwfA.2.2.1 h2, ha, hf, hst, hw2, hsh⟩
      | none =>
        exfalso
        have hnone : bestFitRound (addNewChunk s) req = none := by
          unfold bestFitRound
          rw [h2]
        rw [hnone] at hres
        simp at hres

/-- A small well-formed pool state used to instantiate the pool-level
theorems. -/
def sampleP : PState :=
  { freeList := [{ addr := 0, size := 1000, isFree := true, strategy := Strategy.bestFit }]
    sizeIndex := [{ addr := 0, size := 1000, isFree := true, strategy := Strategy.bestFit }]
    chunks := [0]
    nextAddr := 2000 }

theorem samplePoolWF : PoolWF sampleP :=
  ⟨List.chain'_singleton _, List.Perm.refl _, List.chain'_singleton _,
    by decide, by decide⟩

theorem c3_witness :
    allocateBestFit sampleP 48 = none ↔
      ∀ c ∈ (addNewChunk sampleP).sizeIndex, c.size < 48 :=
  (c3_best_fit_selection_split sampleP 48 samplePoolWF).1

/-! ## Fixed-size slabs, thread cache, scopes and the pool facade -/

/-- FixedSizeAllocator state: LIFO free list over its own 64 KiB chunks;
nextAddr models where the backing allocator places the next chunk. -/
structure SlabState where
  freeList : List Block
  chunks : List Nat
  nextAddr : Nat
deriving DecidableEq, Repr

/-- FixedSizeAllocator's CHUNK_SIZE (64 KiB). -/
def SLAB_CHUNK_SIZE : Nat := 64 * 1024

/-- FixedSizeAllocator::add_new_chunk for payload size B: partition a
fresh 64 KiB chunk into blocks of size B (each behind its own header,
tagged FIXED_SIZE by MemoryBlock::init), pushing each onto the free
list in address order, so the head ends up being the last block. -/
def slabAddChunk (B : Nat) (s : SlabState) : SlabState :=
  let base := s.nextAddr
  let num := SLAB_CHUNK_SIZE / (B + headerSize)
  { freeList := (List.range num).foldl
      (fun acc i =>
        { addr := base + i * (B + headerSize), size := B,
          isFree := true, strategy := Strategy.fixedSize } :: acc)
      s.freeList
    chunks := s.chunks ++ [base]
    nextAddr := base + SLAB_CHUNK_SIZE + CHUNK_GAP }

/-- FixedSizeAllocator::allocate without the stats update (applied by
the caller): refill from a fresh chunk when the free list is empty,
then pop the head and stamp it allocated.  The empty fallback block is
unreachable (a fresh chunk always yields blocks for B at most 256). -/
def slabAllocate (B : Nat) (s : SlabState) : Block × SlabState :=
  let s1 := if s.freeList = [] then slabAddChunk B s else s
  match s1.freeList with
  | [] => ({ addr := 0, size := B, isFree := false, strategy := Strategy.fixedSize }, s1)
  | b :: rest =>
    ({ b with isFree := false, strategy := Strategy.fixedSize },
      { s1 with freeList := rest })

/-- Modelled from the spec: FixedSizeAllocator::allocate_raw is called
by the thread-cache refill in the source but its definition is not
under src; per the spec the refill draws from the slab allocator and
stops when it cannot supply, so allocate_raw hands out one block from
the slab free list without acquiring chunks, null when empty. -/
def slabAllocateRaw (s : SlabState) : Option (Block × SlabState) :=
  match s.freeList with
  | [] => none
  | b :: rest => some (b, { s with freeList := rest })

/-- The three fixed-size slabs and their thread-cache magazines are
three copies of the same code differing in block size, magazine and
refill batch; a selector indexes the copies. -/
inductive SlabSel where
  | small
  | medium
  | large
deriving DecidableEq, Repr

/-- Payload size served by each slab. -/
def SlabSel.blockSize : SlabSel → Nat
  | SlabSel.small => 32
  | SlabSel.medium => 128
  | SlabSel.large => 256

/-- SMALL/MEDIUM/LARGE_CACHE_LIMIT (all 256). -/
def SlabSel.cacheLimit : SlabSel → Nat
  | _ => 256

/-- REFILL_BATCH of refill_small/medium/large_cache. -/
def SlabSel.refillBatch : SlabSel → Nat
  | SlabSel.small => 64
  | SlabSel.medium => 32
  | SlabSel.large => 32

/-- The whole facade state of a MemoryPool together with the
thread-local structures the source keeps in statics: the general pool,
the segregated class lists, the three slabs with their magazines, the
scope stack with its lookup table, and the AllocationStats counters. -/
structure FullState where
  pool : PState
  segLists : List (List Block)
  slabSmall : SlabState
  slabMedium : SlabState
  slabLarge : SlabState
  cacheSmall : List Block
  cacheMedium : List Block
  cacheLarge : List Block
  scopeStack : List (List Nat)
  scopeLookup : List (Nat × Nat × Nat)
  activeScopeCount : Nat
  threadSafe : Bool
  statsAllocs : Nat
  statsDeallocs : Nat
  statsBytes : Nat
deriving DecidableEq, Repr

def FullState.slab (fs : FullState) : SlabSel → SlabState
  | SlabSel.small => fs.slabSmall
  | SlabSel.medium => fs.slabMedium
  | SlabSel.large => fs.slabLarge

def FullState.cache (fs : FullState) : SlabSel → List Block
  | SlabSel.small => fs.cacheSmall
  | SlabSel.medium => fs.cacheMedium
  | SlabSel.large => fs.cacheLarge

def FullState.setSlab (fs : FullState) : SlabSel → SlabState → FullState
  | SlabSel.small, sl => { fs with slabSmall := sl }
  | SlabSel.medium, sl => { fs with slabMedium := sl }
  | SlabSel.large, sl => { fs with slabLarge := sl }

def FullState.setCache (fs : FullState) : SlabSel → List Block → FullState
  | SlabSel.small, c => { fs with cacheSmall := c }
  | SlabSel.medium, c => { fs with cacheMedium := c }
  | SlabSel.large, c => { fs with cacheLarge := c }

def FullState.segList (fs : FullState) (i : Nat) : List Block :=
  fs.segLists.getD i []

def FullState.setSegList (fs : FullState) (i : Nat) (l : List Block) : FullState :=
  { fs with segLists := fs.segLists.set i l }

/-- AllocationStats on the allocation side: allocations++ and
bytes_allocated += size (wrapping size_t addition). -/
def bumpAllocStats (fs : FullState) (sz : Nat) : FullState :=
  { fs with
      statsAllocs := fs.statsAllocs + 1
      statsBytes := (fs.statsBytes + sz) % U64 }

/-- AllocationStats on the deallocation side: deallocations++ and the
guarded decrement of bytes_allocated that saturates at zero. -/
def bumpDeallocStats (fs : FullState) (sz : Nat) : FullState :=
  { fs with
      statsDeallocs := fs.statsDeallocs + 1
      statsBytes := if sz ≤ fs.statsBytes then fs.statsBytes - sz else 0 }

/-- The refill loop of refill_small/medium/large_cache: up to batch
blocks move from the slab (via allocate_raw) into the magazine, each
re-stamped free, stopping at the cache cap or when the slab runs
dry. -/
def refillCacheGo (sel : SlabSel) : Nat → FullState → FullState
  | 0, fs => fs
  | n + 1, fs =>
    if (fs.cache sel).length < sel.cacheLimit then
      match slabAllocateRaw (fs.slab sel) with
      | none => fs
      | some (b, sl) =>
        refillCacheGo sel n
          ((fs.setSlab sel sl).setCache sel
            ({ b with isFree := true } :: fs.cache sel))
    else fs

def refillCache (sel : SlabSel) (fs : FullState) : FullState :=
  refillCacheGo sel sel.refillBatch fs

/-- MemoryPool::acquire_small_from_cache and its medium/large copies:
serve from the magazine, refilling it from the slab first; when both
stay empty, fall back to the slab's own allocate.  The returned header
is stamped allocated FIXED_SIZE and the stats are bumped. -/
def acquireFromCache (sel : SlabSel) (fs : FullState) : Block × FullState :=
  let fs1 := if fs.cache sel = [] then refillCache sel fs else fs
  match fs1.cache sel with
  | [] =>
    let r := slabAllocate sel.blockSize (fs1.slab sel)
    (r.1, bumpAllocStats (fs1.setSlab sel r.2) r.1.size)
  | b :: rest =>
    ({ b with isFree := false, strategy := Strategy.fixedSize },
      bumpAllocStats (fs1.setCache sel rest) b.size)

/-- MemoryPool::release_small_to_cache and copies: push onto the
magazine while below its cap, otherwise hand the block back to the slab
(FixedSizeAllocator::deallocate); both paths count a deallocation and
decrement bytes_allocated saturating at zero. -/
def releaseToCache (sel : SlabSel) (fs : FullState) (b : Block) : FullState :=
  if (fs.cache sel).length < sel.cacheLimit then
    bumpDeallocStats (fs.setCache sel ({ b with isFree := true } :: fs.cache sel))
      b.size
  else
    bumpDeallocStats
      (fs.setSlab sel
        { fs.slab sel with
            freeList := { b with isFree := true } :: (fs.slab sel).freeList })
      b.size

/-! ## Scope tracking -/

/-- scope_lookup as an association list from payload address to
(scope_index, position). -/
def lookupFind (l : List (Nat × Nat × Nat)) (k : Nat) : Option (Nat × Nat) :=
  match l with
  | [] => none
  | e :: rest => if e.1 = k then some e.2 else lookupFind rest k

/-- scope_lookup.erase(key). -/
def lookupErase (l : List (Nat × Nat × Nat)) (k : Nat) : List (Nat × Nat × Nat) :=
  match l with
  | [] => []
  | e :: rest => if e.1 = k then rest else e :: lookupErase rest k

/-- scope_lookup[key] = entry (insert or overwrite). -/
def lookupSet (l : List (Nat × Nat × Nat)) (k : Nat) (v : Nat × Nat) :
    List (Nat × Nat × Nat) :=
  match l with
  | [] => [(k, v.1, v.2)]
  | e :: rest => if e.1 = k then (k, v.1, v.2) :: rest else e :: lookupSet rest k v

/-- scope_lookup[key].position = pos: operator[] default-inserts a zero
entry when the key is absent, then the position field is written. -/
def lookupPatchPos (l : List (Nat × Nat × Nat)) (k pos : Nat) :
    List (Nat × Nat × Nat) :=
  match l with
  | [] => [(k, 0, pos)]
  | e :: rest =>
    if e.1 = k then (k, e.2.1, pos) :: rest else e :: lookupPatchPos rest k pos

/-- The scope registration in MemoryPool::allocate: append the payload
to the top cohort and record payload -> (cohort index, position). -/
def scopeAppend (fs : FullState) (p : Nat) : FullState :=
  match fs.scopeStack.getLast? with
  | none => fs
  | some top =>
    { fs with
        scopeStack := fs.scopeStack.dropLast ++ [top ++ [p]]
        scopeLookup := lookupSet fs.scopeLookup p
          (fs.scopeStack.length - 1, top.length) }

/-- MemoryPool::begin_scope. -/
def beginScope (fs : FullState) : FullState :=
  { fs with
      scopeStack := fs.scopeStack ++ [[]]
      activeScopeCount := fs.activeScopeCount + 1 }

/-- MemoryPool::end_scope: move the top cohort out, erase its lookup
entries, pop the stack, and hand the cohort back; the source then calls
deallocate on each member in cohort order, outside the lock. -/
def endScopeFull (fs : FullState) : FullState × List Nat :=
  match fs.scopeStack.getLast? with
  | none =>
    ({ fs with
        activeScopeCount :=
          if 0 < fs.activeScopeCount then fs.activeScopeCount - 1
          else fs.activeScopeCount }, [])
  | some top =>
    ({ fs with
        scopeStack := fs.scopeStack.dropLast
        scopeLookup := top.foldl (fun acc q => lookupErase acc q) fs.scopeLookup
        activeScopeCount := fs.activeScopeCount - 1 }, top)

/-- The scope-table removal at the top of MemoryPool::deallocate (run
only when the pool is thread safe and a scope is active): look the
payload up, swap the cohort's last element into its slot, patch the
moved element's recorded position, and erase the payload's entry. -/
def scopeRemove (fs : FullState) (p : Nat) : FullState :=
  match lookupFind fs.scopeLookup p with
  | none => fs
  | some (si, pos) =>
    let fs1 :=
      if si < fs.scopeStack.length then
        let scope := fs.scopeStack.getD si []
        if pos < scope.length then
          let tail := scope.getLastD 0
          let fs2 := { fs with
            scopeStack := fs.scopeStack.set si ((scope.set pos tail).dropLast) }
          if tail ≠ p then
            { fs2 with scopeLookup := lookupPatchPos fs2.scopeLookup tail pos }
          else fs2
        else fs
      else fs
    { fs1 with scopeLookup := lookupErase fs1.scopeLookup p }

/-! ## Segregated lists and the facade operations -/

/-- allocate_best_fit lifted to the facade, applying its stats lines. -/
def liftBestFit (fs : FullState) (size : Nat) : Option (Block × FullState) :=
  match allocateBestFit fs.pool size with
  | none => none
  | some (b, p) => some (b, bumpAllocStats { fs with pool := p } b.size)

/-- allocate_from_pool lifted to the facade, applying its stats lines. -/
def liftPoolBased (fs : FullState) (size : Nat) : Option (Block × FullState) :=
  match allocateFromPool fs.pool size with
  | none => none
  | some (b, p) => some (b, bumpAllocStats { fs with pool := p } b.size)

/-- The partition loop of replenish_segregated_class: carve blocks of
the class payload size (each behind a header tagged Segregated) off the
detached chunk, prepending each onto the chain; returns the chain (head
is the last block carved), the cursor past the carved area and the
remaining byte count. -/
structure SegPart where
  chain : List Block
  cursor : Nat
  leftover : Nat
deriving DecidableEq, Repr

def segPartition (cursor total classSize : Nat) : SegPart :=
  if h : classSize + headerSize ≤ total then
    let rest := segPartition (cursor + classSize + headerSize)
      (total - (classSize + headerSize)) classSize
    let carved : Block :=
      { addr := cursor, size := classSize,
        isFree := true, strategy := Strategy.segregated }
    { chain := rest.chain ++ [carved]
      cursor := rest.cursor
      leftover := rest.leftover }
  else { chain := [], cursor := cursor, leftover := total }
termination_by total
decreasing_by
  have h32 : headerSize = 32 := rfl
  omega

/-- MemoryPool::replenish_segregated_class: acquire a fresh chunk,
detach the single free block laid over it, partition it into class-size
Segregated blocks spliced LIFO onto the class list, and reinsert a
remainder larger than a header into the BestFit free list. -/
def replenishFull (fs : FullState) (classIndex : Nat) : FullState :=
  if SEGREGATED_CLASS_COUNT ≤ classIndex then fs else
  let p1 := addNewChunk fs.pool
  let base := p1.chunks.getLastD 0
  let cb := ((p1.freeList.find? (fun x => x.addr = base)).getD (chunkBlock base))
  let p2 := detachFreeBlock p1 cb.addr
  let classSize := (SEGREGATED_CLASS_SIZES.getD classIndex 0)
  if U64 - 1 - headerSize < cb.size then { fs with pool := p2 } else
  let part := segPartition cb.addr (cb.size + headerSize) classSize
  let fs1 := { fs with
    pool := p2
    segLists := fs.segLists.set classIndex (part.chain ++ fs.segList classIndex) }
  if headerSize < part.leftover then
    let rem : Block :=
      { addr := part.cursor, size := part.leftover - headerSize,
        isFree := true, strategy := Strategy.bestFit }
    { fs1 with pool := insertFreeBlock fs1.pool rem }
  else fs1

/-- MemoryPool::allocate_segregated (unsharded build): pop the head of
the class list, refilling the class first when it is empty; delegate to
best fit when the size exceeds every class or the list stays empty. -/
def allocateSegregatedFull (fs : FullState) (size : Nat) :
    Option (Block × FullState) :=
  let classIndex := selectSegClass size
  if classIndex = SEGREGATED_CLASS_COUNT then liftBestFit fs size else
  let fs1 := if fs.segList classIndex = [] then replenishFull fs classIndex else fs
  match fs1.segList classIndex with
  | [] => liftBestFit fs1 size
  | b :: rest =>
    some ({ b with isFree := false, strategy := Strategy.segregated },
      bumpAllocStats (fs1.setSegList classIndex rest) b.size)

/-- MemoryPool::deallocate_block: return the block to the free
structures and update the stats, decrementing bytes_allocated with
saturation at zero. -/
def deallocateBlockFull (fs : FullState) (b : Block) : FullState :=
  bumpDeallocStats { fs with pool := insertFreeBlock fs.pool b } b.size

/-- MemoryPool::allocate: reclassification, the thread-cache fast path
for fixed-size requests (scope-registered only under thread_safe with
an active scope, as in the source), then the locked switch over
best-fit / pool / segregated allocation with scope registration of the
returned payload whenever the scope stack is non-empty. -/
def allocateFull (fs : FullState) (size : Nat) (strat : Strategy) :
    Option (Block × FullState) :=
  let a := alignSize size
  let eff := effectiveStrategy a strat
  let fixedResult : Option (Block × FullState) :=
    if eff = Strategy.fixedSize then
      if a ≤ 32 then some (acquireFromCache SlabSel.small fs)
      else if a ≤ 128 then some (acquireFromCache SlabSel.medium fs)
      else if a ≤ 256 then some (acquireFromCache SlabSel.large fs)
      else none
    else none
  match fixedResult with
  | some (b, fs1) =>
    let fs2 :=
      if fs1.threadSafe = true ∧ 0 < fs1.activeScopeCount ∧ fs1.scopeStack ≠ [] then
        scopeAppend fs1 (b.addr + headerSize)
      else fs1
    some (b, fs2)
  | none =>
    let res : Option (Block × FullState) :=
      match eff with
      | Strategy.bestFit => liftBestFit fs a
      | Strategy.poolBased => liftPoolBased fs a
      | Strategy.segregated => allocateSegregatedFull fs a
      | Strategy.fixedSize => liftBestFit fs a
    match res with
    | none => none
    | some (b, fs1) =>
      if fs1.scopeStack ≠ [] then some (b, scopeAppend fs1 (b.addr + headerSize))
      else some (b, fs1)

/-- MemoryPool::deallocate for a non-null payload whose header
currently reads b (the source recovers the header from the payload
address; the model is handed its contents). -/
def deallocateFull (fs : FullState) (b : Block) : FullState :=
  let p := b.addr + headerSize
  let fs0 :=
    if fs.threadSafe = true ∧ 0 < fs.activeScopeCount then scopeRemove fs p else fs
  match b.strategy with
  | Strategy.fixedSize =>
    if b.size ≤ 32 then releaseToCache SlabSel.small fs0 b
    else if b.size ≤ 128 then releaseToCache SlabSel.medium fs0 b
    else if b.size ≤ 256 then releaseToCache SlabSel.large fs0 b
    else deallocateBlockFull fs0 b
  | Strategy.segregated =>
    let classIndex := selectSegClass b.size
    let fs1 :=
      if classIndex < SEGREGATED_CLASS_COUNT then
        fs0.setSegList classIndex
          ({ b with isFree := true, strategy := Strategy.segregated } ::
            fs0.segList classIndex)
      else { fs0 with pool := insertFreeBlock fs0.pool b }
    bumpDeallocStats fs1 b.size
  | _ => deallocateBlockFull fs0 b

/-- MemoryPool::reset: drop the free structures, lay a fresh free block
over every chunk and insert each into the free list and size index,
clear the scope structures, the segregated lists and the thread-local
magazines.  The AllocationStats counters are not touched. -/
def resetFull (fs : FullState) : FullState :=
  { fs with
      pool := fs.pool.chunks.foldl
        (fun acc c => insertFreeBlock acc (chunkBlock c))
        { freeList := [], sizeIndex := [],
          chunks := fs.pool.chunks, nextAddr := fs.pool.nextAddr }
      scopeStack := []
      scopeLookup := []
      segLists := List.replicate SEGREGATED_CLASS_COUNT []
      activeScopeCount := 0
      cacheSmall := []
      cacheMedium := []
      cacheLarge := [] }

/-- Modelled from the spec: MemoryPool::usable_size (called by the
bench adapter, definition not under src) returns the payload capacity
recorded in the block header. -/
def usableSize (b : Block) : Nat := b.size

/-! ## Theorems about deallocation -/

theorem scopeRemove_pool (fs : FullState) (p : Nat) :
    (scopeRemove fs p).pool = fs.pool := by
  unfold scopeRemove
  cases lookupFind fs.scopeLookup p with
  | none => rfl
  | some e =>
    dsimp only
    split_ifs <;> rfl

theorem scopeRemove_stats (fs : FullState) (p : Nat) :
    (scopeRemove fs p).statsBytes = fs.statsBytes ∧
    (scopeRemove fs p).statsDeallocs = fs.statsDeallocs := by
  unfold scopeRemove
  cases lookupFind fs.scopeLookup p with
  | none => exact ⟨rfl, rfl⟩
  | some e =>
    dsimp only
    split_ifs <;> exact ⟨rfl, rfl⟩

theorem deallocateFull_pool_general (fs : FullState) (b : Block)
    (hstrat : b.strategy = Strategy.bestFit ∨ b.strategy = Strategy.poolBased) :
    (deallocateFull fs b).pool = insertFreeBlock fs.pool b := by
  unfold deallocateFull
  have hpool0 : (if fs.threadSafe = true ∧ 0 < fs.activeScopeCount then
      scopeRemove fs (b.addr + headerSize) else fs).pool = fs.pool := by
    split_ifs with h
    · exact scopeRemove_pool fs _
    · rfl
  rcases hstrat with h | h <;> rw [h] <;>
    simp only [deallocateBlockFull, bumpDeallocStats, hpool0]

/-- C4: after a deallocate of a BestFit or Pool block returns, no two
physically adjacent free BestFit blocks coexist: the block is linked
into the address-ordered free list and the size index, then merged with
the immediately-following and then the previous block exactly when that
neighbor is physically adjacent (all free-list members being free and
BestFit-tagged), the size index staying a permutation of the free list;
the free list is strictly address ordered both right after linking and
after coalescing. -/
theorem c4_deallocate_coalesces (fs : FullState) (b : Block)
    (hwf : PoolWF fs.pool)
    (hstrat : b.strategy = Strategy.bestFit ∨ b.strategy = Strategy.poolBased)
    (hdisj : ∀ x ∈ fs.pool.freeList, endA x ≤ b.addr ∨ endA b ≤ x.addr)
    (hbound : endA b < fs.pool.nextAddr) :
    noAdj (deallocateFull fs b).pool.freeList ∧
    sortedAddr (deallocateFull fs b).pool.freeList ∧
    PoolWF (deallocateFull fs b).pool ∧
    (deallocateFull fs b).pool.sizeIndex.Perm (deallocateFull fs b).pool.freeList ∧
    sortedAddr ((splitAtAddr b.addr fs.pool.freeList).1 ++
      { b with isFree := true, strategy := Strategy.bestFit } ::
        (splitAtAddr b.addr fs.pool.freeList).2) ∧
    ∃ c ∈ (deallocateFull fs b).pool.freeList,
      c.addr ≤ b.addr ∧ endA b ≤ endA c ∧
      (c.addr < b.addr ↔ ∃ p ∈ fs.pool.freeList, endA p = b.addr) ∧
      (endA b < endA c ↔ ∃ n ∈ fs.pool.freeList, n.addr = endA b) := by
  have hpool := deallocateFull_pool_general fs b hstrat
  rw [hpool]
  obtain ⟨hw, hchunks, hnx, hcov⟩ := insertFreeBlock_wf fs.pool b hwf hdisj hbound
  obtain ⟨hLf, hRf, hgL, hgR, hLR, hneq, hfr⟩ := insert_split_facts fs.pool b hwf hdisj
  have hsplit := splitAtAddr_append b.addr fs.pool.freeList
  have hRmem : ∀ x ∈ (splitAtAddr b.addr fs.pool.freeList).2, x ∈ fs.pool.freeList := by
    intro x hx
    rw [← hsplit]
    exact List.mem_append_right _ hx
  refine ⟨strictGaps_noAdj hw.1, strictGaps_sortedAddr hw.1, hw, hw.2.1, ?_, hcov⟩
  unfold sortedAddr
  refine List.chain'_append.mpr ⟨strictGaps_sortedAddr hgL, ?_, ?_⟩
  · refine List.chain'_cons'.mpr ⟨?_, strictGaps_sortedAddr hgR⟩
    intro y hy
    have h1 := (hRf y (mem_of_head?_eq hy)).1
    have h2 := hneq y (hRmem y (mem_of_head?_eq hy))
    show (_ : Block).addr < y.addr
    dsimp only
    omega
  · intro p hp y hy
    rw [List.head?_cons, Option.mem_def, Option.some_inj] at hy
    subst hy
    have h1 := (hLf p (mem_of_getLast?_eq hp)).1
    exact h1

/-- A facade state around sampleP used to instantiate the facade
theorems. -/
def sampleFS : FullState :=
  { pool := sampleP
    segLists := List.replicate SEGREGATED_CLASS_COUNT []
    slabSmall := { freeList := [], chunks := [], nextAddr := 100000 }
    slabMedium := { freeList := [], chunks := [], nextAddr := 200000 }
    slabLarge := { freeList := [], chunks := [], nextAddr := 300000 }
    cacheSmall := []
    cacheMedium := []
    cacheLarge := []
    scopeStack := []
    scopeLookup := []
    activeScopeCount := 0
    threadSafe := false
    statsAllocs := 0
    statsDeallocs := 0
    statsBytes := 0 }

theorem c4_witness :
    noAdj (deallocateFull sampleFS
      { addr := 1032, size := 100, isFree := false,
        strategy := Strategy.bestFit }).pool.freeList := by
  have h := c4_deallocate_coalesces sampleFS
    { addr := 1032, size := 100, isFree := false, strategy := Strategy.bestFit }
    samplePoolWF (Or.inl rfl) (by decide) (by decide)
  exact h.1

@[simp] theorem setCache_statsBytes (fs : FullState) (sel : SlabSel) (c : List Block) :
    (fs.setCache sel c).statsBytes = fs.statsBytes := by
  cases sel <;> rfl

@[simp] theorem setCache_statsDeallocs (fs : FullState) (sel : SlabSel) (c : List Block) :
    (fs.setCache sel c).statsDeallocs = fs.statsDeallocs := by
  cases sel <;> rfl

@[simp] theorem setSlab_statsBytes (fs : FullState) (sel : SlabSel) (sl : SlabState) :
    (fs.setSlab sel sl).statsBytes = fs.statsBytes := by
  cases sel <;> rfl

@[simp] theorem setSlab_statsDeallocs (fs : FullState) (sel : SlabSel) (sl : SlabState) :
    (fs.setSlab sel sl).statsDeallocs = fs.statsDeallocs := by
  cases sel <;> rfl

@[simp] theorem setSegList_statsBytes (fs : FullState) (i : Nat) (l : List Block) :
    (fs.setSegList i l).statsBytes = fs.statsBytes := rfl

@[simp] theorem setSegList_statsDeallocs (fs : FullState) (i : Nat) (l : List Block) :
    (fs.setSegList i l).statsDeallocs = fs.statsDeallocs := rfl

/-- C10: on every deallocation path (best-fit and pool blocks returned
to the free list, segregated blocks pushed onto a class list or routed
to the free list, thread-cache releases and slab releases alike), the
thread-local bytes_allocated counter is decremented with saturation at
zero - when the freed block's size exceeds the counter it is set to 0
instead of wrapping - and the deallocation counter is incremented. -/
theorem c10_stats_saturating_dec (fs : FullState) (b : Block) :
    (deallocateFull fs b).statsBytes =
      (if b.size ≤ fs.statsBytes then fs.statsBytes - b.size else 0) ∧
    (deallocateFull fs b).statsDeallocs = fs.statsDeallocs + 1 := by
  unfold deallocateFull
  have h0 : (if fs.threadSafe = true ∧ 0 < fs.activeScopeCount then
      scopeRemove fs (b.addr + headerSize) else fs).statsBytes = fs.statsBytes ∧
      (if fs.threadSafe = true ∧ 0 < fs.activeScopeCount then
      scopeRemove fs (b.addr + headerSize) else fs).statsDeallocs =
        fs.statsDeallocs := by
    split_ifs with h
    · exact scopeRemove_stats fs _
    · exact ⟨rfl, rfl⟩
  cases hb : b.strategy <;>
    simp only [releaseToCache, bumpDeallocStats, deallocateBlockFull,
      setCache_statsBytes, setCache_statsDeallocs, setSlab_statsBytes,
      setSlab_statsDeallocs, setSegList_statsBytes, setSegList_statsDeallocs] <;>
    split_ifs <;>
    simp_all

/-! ## Sizes served by the fixed-size machinery -/

@[simp] theorem cache_setCache (fs : FullState) (sel : SlabSel) (c : List Block) :
    (fs.setCache sel c).cache sel = c := by
  cases sel <;> rfl

@[simp] theorem slab_setCache (fs : FullState) (sel : SlabSel) (c : List Block) :
    (fs.setCache sel c).slab sel = fs.slab sel := by
  cases sel <;> rfl

@[simp] theorem cache_setSlab (fs : FullState) (sel : SlabSel) (sl : SlabState) :
    (fs.setSlab sel sl).cache sel = fs.cache sel := by
  cases sel <;> rfl

@[simp] theorem slab_setSlab (fs : FullState) (sel : SlabSel) (sl : SlabState) :
    (fs.setSlab sel sl).slab sel = sl := by
  cases sel <;> rfl

theorem slabAddChunk_inv (B : Nat) (s : SlabState)
    (h : ∀ blk ∈ s.freeList, blk.size = B) :
    ∀ blk ∈ (slabAddChunk B s).freeList, blk.size = B := by
  unfold slabAddChunk
  dsimp only
  generalize List.range (SLAB_CHUNK_SIZE / (B + headerSize)) = l
  induction l generalizing s with
  | nil => exact h
  | cons i is ih =>
    rw [List.foldl_cons]
    exact ih { s with freeList :=
      { addr := s.nextAddr + i * (B + headerSize), size := B,
        isFree := true, strategy := Strategy.fixedSize } :: s.freeList }
      (by
        intro blk hblk
        rcases List.mem_cons.mp hblk with rfl | hblk
        · rfl
        · exact h blk hblk)

theorem slabAllocate_size (B : Nat) (s : SlabState)
    (h : ∀ blk ∈ s.freeList, blk.size = B) :
    (slabAllocate B s).1.size = B := by
  unfold slabAllocate
  dsimp only
  split_ifs with hemp
  · have h2 := slabAddChunk_inv B s h
    cases hfl : (slabAddChunk B s).freeList with
    | nil => rfl
    | cons b rest =>
      have := h2 b (by rw [hfl]; exact List.mem_cons_self _ _)
      exact this
  · cases hfl : s.freeList with
    | nil => rfl
    | cons b rest =>
      have := h b (by rw [hfl]; exact List.mem_cons_self _ _)
      exact this

theorem refillCacheGo_inv (sel : SlabSel) (B : Nat) (n : Nat) (fs : FullState)
    (hc : ∀ blk ∈ fs.cache sel, blk.size = B)
    (hs : ∀ blk ∈ (fs.slab sel).freeList, blk.size = B) :
    (∀ blk ∈ (refillCacheGo sel n fs).cache sel, blk.size = B) ∧
    (∀ blk ∈ ((refillCacheGo sel n fs).slab sel).freeList, blk.size = B) := by
  induction n generalizing fs with
  | zero => exact ⟨hc, hs⟩
  | succ n ih =>
    unfold refillCacheGo
    split_ifs with hlim
    · cases hr : slabAllocateRaw (fs.slab sel) with
      | none => exact ⟨hc, hs⟩
      | some r =>
        obtain ⟨b, sl⟩ := r
        unfold slabAllocateRaw at hr
        cases hfl : (fs.slab sel).freeList with
        | nil => rw [hfl] at hr; simp at hr
        | cons x rest =>
          rw [hfl] at hr
          dsimp only at hr
          rw [Option.some_inj, Prod.mk.injEq] at hr
          obtain ⟨rfl, rfl⟩ := hr
          have hx : x.size = B := hs x (by rw [hfl]; exact List.mem_cons_self _ _)
          refine ih _ ?_ ?_
          · intro blk hblk
            rw [cache_setCache] at hblk
            rcases List.mem_cons.mp hblk with rfl | hblk
            · exact hx
            · exact hc blk hblk
          · intro blk hblk
            rw [slab_setCache, slab_setSlab] at hblk
            exact hs blk (by rw [hfl]; exact List.mem_cons_of_mem x hblk)
    · exact ⟨hc, hs⟩

theorem acquireFromCache_size (sel : SlabSel) (fs : FullState)
    (hc : ∀ blk ∈ fs.cache sel, blk.size = sel.blockSize)
    (hs : ∀ blk ∈ (fs.slab sel).freeList, blk.size = sel.blockSize) :
    (acquireFromCache sel fs).1.size = sel.blockSize := by
  unfold acquireFromCache
  dsimp only
  split_ifs with hemp
  · have hinv := refillCacheGo_inv sel sel.blockSize sel.refillBatch fs hc hs
    rw [refillCache] at *
    cases hfl : (refillCacheGo sel sel.refillBatch fs).cache sel with
    | nil =>
      exact slabAllocate_size sel.blockSize _ hinv.2
    | cons b rest =>
      exact hinv.1 b (by rw [hfl]; exact List.mem_cons_self _ _)
  · cases hfl : fs.cache sel with
    | nil => exact slabAllocate_size sel.blockSize _ hs
    | cons b rest =>
      exact hc b (by rw [hfl]; exact List.mem_cons_self _ _)

/-! ## Sizes returned by the general paths -/

theorem bestFitRound_size {s : PState} {size : Nat} {b : Block} {s2 : PState}
    (h : bestFitRound s size = some (b, s2)) : size ≤ b.size := by
  unfold bestFitRound at h
  cases hlb : lowerBound size s.sizeIndex with
  | none => rw [hlb] at h; simp at h
  | some b0 =>
    have hmin := (lowerBound_mem hlb).2
    rw [hlb] at h
    dsimp only at h
    split_ifs at h with hsplit
    · rw [Option.some_inj, Prod.mk.injEq] at h
      rw [← h.1]
    · rw [Option.some_inj, Prod.mk.injEq] at h
      obtain ⟨hb, -⟩ := h
      rw [← hb]
      exact hmin

theorem allocateBestFit_size {s : PState} {size : Nat} {b : Block} {s2 : PState}
    (h : allocateBestFit s size = some (b, s2)) : size ≤ b.size := by
  unfold allocateBestFit at h
  cases hlb : lowerBound size s.sizeIndex with
  | none => rw [hlb] at h; exact bestFitRound_size h
  | some b0 => rw [hlb] at h; exact bestFitRound_size h

theorem poolRound_size {s : PState} {size : Nat} {b : Block} {s2 : PState}
    (h : poolRound s size = some (b, s2)) : size ≤ b.size := by
  unfold poolRound at h
  cases hlb : lowerBound size s.sizeIndex with
  | none => rw [hlb] at h; simp at h
  | some b0 =>
    have hmin := (lowerBound_mem hlb).2
    rw [hlb] at h
    dsimp only at h
    rw [Option.some_inj, Prod.mk.injEq] at h
    obtain ⟨hb, -⟩ := h
    rw [← hb]
    exact hmin

theorem allocateFromPool_size {s : PState} {size : Nat} {b : Block} {s2 : PState}
    (h : allocateFromPool s size = some (b, s2)) : size ≤ b.size := by
  unfold allocateFromPool at h
  cases hlb : lowerBound size s.sizeIndex with
  | none => rw [hlb] at h; exact poolRound_size h
  | some b0 => rw [hlb] at h; exact poolRound_size h

theorem liftBestFit_size {fs : FullState} {size : Nat} {b : Block} {fs2 : FullState}
    (h : liftBestFit fs size = some (b, fs2)) : size ≤ b.size := by
  unfold liftBestFit at h
  cases hbf : allocateBestFit fs.pool size with
  | none => rw [hbf] at h; simp at h
  | some r =>
    obtain ⟨b0, p⟩ := r
    rw [hbf] at h
    dsimp only at h
    rw [Option.some_inj, Prod.mk.injEq] at h
    obtain ⟨hb, -⟩ := h
    rw [← hb]
    exact allocateBestFit_size hbf

theorem liftPoolBased_size {fs : FullState} {size : Nat} {b : Block} {fs2 : FullState}
    (h : liftPoolBased fs size = some (b, fs2)) : size ≤ b.size := by
  unfold liftPoolBased at h
  cases hbf : allocateFromPool fs.pool size with
  | none => rw [hbf] at h; simp at h
  | some r =>
    obtain ⟨b0, p⟩ := r
    rw [hbf] at h
    dsimp only at h
    rw [Option.some_inj, Prod.mk.injEq] at h
    obtain ⟨hb, -⟩ := h
    rw [← hb]
    exact allocateFromPool_size hbf

/-! ## Segregated lists hold class-sized blocks -/

theorem segPartition_mem :
    ∀ total cursor cs, ∀ blk ∈ (segPartition cursor total cs).chain,
      blk.size = cs ∧ blk.strategy = Strategy.segregated ∧ blk.isFree = true := by
  intro total
  induction total using Nat.strong_induction_on with
  | _ total ih =>
    intro cursor cs blk hblk
    rw [segPartition] at hblk
    by_cases hle : cs + headerSize ≤ total
    · rw [dif_pos hle] at hblk
      dsimp only at hblk
      rcases List.mem_append.mp hblk with hblk | hblk
      · have h32 : headerSize = 32 := rfl
        exact ih (total - (cs + headerSize)) (by omega) _ cs blk hblk
      · rcases List.mem_singleton.mp hblk with rfl
        exact ⟨rfl, rfl, rfl⟩
    · rw [dif_neg hle] at hblk
      simp at hblk

theorem mem_segListD_set {ls : List (List Block)} {i : Nat} {x : List Block}
    {blk : Block} (h : blk ∈ (ls.set i x).getD i []) :
    blk ∈ x ∨ blk ∈ ls.getD i [] := by
  by_cases hi : i < ls.length
  · left
    rw [show (ls.set i x).getD i [] = x by
      simp [List.getD, List.getElem?_set_self, hi]] at h
    exact h
  · right
    rw [List.set_eq_of_length_le (by omega)] at h
    exact h

theorem replenishFull_class_sizes (fs : FullState) (ci : Nat)
    (h : ∀ blk ∈ fs.segList ci, blk.size = SEGREGATED_CLASS_SIZES.getD ci 0) :
    ∀ blk ∈ (replenishFull fs ci).segList ci,
      blk.size = SEGREGATED_CLASS_SIZES.getD ci 0 := by
  intro blk hblk
  unfold replenishFull at hblk
  by_cases h8 : SEGREGATED_CLASS_COUNT ≤ ci
  · rw [if_pos h8] at hblk
    exact h blk hblk
  · rw [if_neg h8] at hblk
    dsimp only at hblk
    split_ifs at hblk with hover hrem
    · exact h blk hblk
    · dsimp only [FullState.segList] at hblk
      rcases mem_segListD_set hblk with hblk | hblk
      · rcases List.mem_append.mp hblk with hblk | hblk
        · exact (segPartition_mem _ _ _ blk hblk).1
        · exact h blk hblk
      · exact h blk hblk
    · dsimp only [FullState.segList] at hblk
      rcases mem_segListD_set hblk with hblk | hblk
      · rcases List.mem_append.mp hblk with hblk | hblk
        · exact (segPartition_mem _ _ _ blk hblk).1
        · exact h blk hblk
      · exact h blk hblk

theorem selectSegClass_le (a : Nat) (h : selectSegClass a ≠ SEGREGATED_CLASS_COUNT) :
    a ≤ SEGREGATED_CLASS_SIZES.getD (selectSegClass a) 0 := by
  rw [selectSegClass_eq] at h ⊢
  unfold specSegClass at h ⊢
  unfold SEGREGATED_CLASS_COUNT at h
  split_ifs at h ⊢ <;>
    first
      | exact absurd rfl h
      | assumption

theorem selectSegClass_le_count (a : Nat) :
    selectSegClass a ≤ SEGREGATED_CLASS_COUNT := by
  rw [selectSegClass_eq]
  unfold specSegClass SEGREGATED_CLASS_COUNT
  split_ifs <;> omega

theorem allocateSegregatedFull_size {fs : FullState} {a : Nat} {b : Block}
    {fs2 : FullState}
    (hseg : selectSegClass a ≠ SEGREGATED_CLASS_COUNT →
      ∀ blk ∈ fs.segList (selectSegClass a),
        blk.size = SEGREGATED_CLASS_SIZES.getD (selectSegClass a) 0)
    (h : allocateSegregatedFull fs a = some (b, fs2)) : a ≤ b.size := by
  unfold allocateSegregatedFull at h
  by_cases h8 : selectSegClass a = SEGREGATED_CLASS_COUNT
  · rw [if_pos h8] at h
    exact liftBestFit_size h
  · rw [if_neg h8] at h
    dsimp only at h
    have hle := selectSegClass_le a h8
    by_cases hemp : fs.segList (selectSegClass a) = []
    · rw [if_pos hemp] at h
      have hinv := replenishFull_class_sizes fs (selectSegClass a) (hseg h8)
      cases hfl : (replenishFull fs (selectSegClass a)).segList (selectSegClass a) with
      | nil => rw [hfl] at h; exact liftBestFit_size h
      | cons b0 rest =>
        rw [hfl] at h
        dsimp only at h
        rw [Option.some_inj, Prod.mk.injEq] at h
        obtain ⟨hb, -⟩ := h
        rw [← hb]
        have := hinv b0 (by rw [hfl]; exact List.mem_cons_self _ _)
        calc a ≤ SEGREGATED_CLASS_SIZES.getD (selectSegClass a) 0 := hle
          _ = b0.size := this.symm
    · rw [if_neg hemp] at h
      cases hfl : fs.segList (selectSegClass a) with
      | nil => exact absurd hfl hemp
      | cons b0 rest =>
        rw [hfl] at h
        dsimp only at h
        rw [Option.some_inj, Prod.mk.injEq] at h
        obtain ⟨hb, -⟩ := h
        rw [← hb]
        have := hseg h8 b0 (by rw [hfl]; exact List.mem_cons_self _ _)
        calc a ≤ SEGREGATED_CLASS_SIZES.getD (selectSegClass a) 0 := hle
          _ = b0.size := this.symm

/-- Rounding to the next 16-byte multiple does not shrink the request as
long as size + 15 stays below 2^64 (the C++ computation is wrapping). -/
theorem alignSize_ge {size : Nat} (h : size + 15 < U64) : size ≤ alignSize size := by
  unfold alignSize
  dsimp only
  rw [Nat.mod_eq_of_lt h]
  omega

/-- The size bookkeeping the allocator maintains across operations:
every segregated class list holds blocks of that class's size, and the
three magazines and slab free lists hold blocks of their slab's size. -/
def FullWF (fs : FullState) : Prop :=
  (∀ i < SEGREGATED_CLASS_COUNT, ∀ blk ∈ fs.segList i,
    blk.size = SEGREGATED_CLASS_SIZES.getD i 0) ∧
  (∀ blk ∈ fs.cacheSmall, blk.size = 32) ∧
  (∀ blk ∈ fs.cacheMedium, blk.size = 128) ∧
  (∀ blk ∈ fs.cacheLarge, blk.size = 256) ∧
  (∀ blk ∈ fs.slabSmall.freeList, blk.size = 32) ∧
  (∀ blk ∈ fs.slabMedium.freeList, blk.size = 128) ∧
  (∀ blk ∈ fs.slabLarge.freeList, blk.size = 256)

/-- C1 (amended): the claim as stated fails for sizes whose 16-byte
rounding wraps around the size type; under the added hypothesis that
size + 15 does not overflow, every allocate that returns a block hands
back a usable size of at least the requested size, in any state whose
size bookkeeping is intact. -/
theorem c1_usable_size_ge_request (fs : FullState) (size : Nat) (strat : Strategy)
    (hov : size + 15 < U64) (hwf : FullWF fs) :
    ∀ b fs2, allocateFull fs size strat = some (b, fs2) → size ≤ usableSize b := by
  intro b fs2 h
  have ha : size ≤ alignSize size := alignSize_ge hov
  obtain ⟨hseg, hcs, hcm, hcl, hss, hsm, hsl⟩ := hwf
  unfold allocateFull at h
  dsimp only at h
  by_cases heff : effectiveStrategy (alignSize size) strat = Strategy.fixedSize
  · rw [if_pos heff] at h
    by_cases h32 : alignSize size ≤ 32
    · rw [if_pos h32] at h
      rcases hacq : acquireFromCache SlabSel.small fs with ⟨bb, ff⟩
      rw [hacq] at h
      dsimp only at h
      split_ifs at h <;>
      · rw [Option.some_inj, Prod.mk.injEq] at h
        obtain ⟨hb, -⟩ := h
        have hsz : bb.size = 32 := by
          have := acquireFromCache_size SlabSel.small fs hcs hss
          rw [hacq] at this
          exact this
        unfold usableSize
        rw [← hb]
        omega
    · rw [if_neg h32] at h
      by_cases h128 : alignSize size ≤ 128
      · rw [if_pos h128] at h
        rcases hacq : acquireFromCache SlabSel.medium fs with ⟨bb, ff⟩
        rw [hacq] at h
        dsimp only at h
        split_ifs at h <;>
        · rw [Option.some_inj, Prod.mk.injEq] at h
          obtain ⟨hb, -⟩ := h
          have hsz : bb.size = 128 := by
            have := acquireFromCache_size SlabSel.medium fs hcm hsm
            rw [hacq] at this
            exact this
          unfold usableSize
          rw [← hb]
          omega
      · rw [if_neg h128] at h
        by_cases h256 : alignSize size ≤ 256
        · rw [if_pos h256] at h
          rcases hacq : acquireFromCache SlabSel.large fs with ⟨bb, ff⟩
          rw [hacq] at h
          dsimp only at h
          split_ifs at h <;>
          · rw [Option.some_inj, Prod.mk.injEq] at h
            obtain ⟨hb, -⟩ := h
            have hsz : bb.size = 256 := by
              have := acquireFromCache_size SlabSel.large fs hcl hsl
              rw [hacq] at this
              exact this
            unfold usableSize
            rw [← hb]
            omega
        · rw [if_neg h256] at h
          dsimp only at h
          rw [heff] at h
          dsimp only at h
          cases hr : liftBestFit fs (alignSize size) with
          | none => rw [hr] at h; simp at h
          | some r =>
            obtain ⟨bb, ff⟩ := r
            rw [hr] at h
            dsimp only at h
            split_ifs at h <;>
            · rw [Option.some_inj, Prod.mk.injEq] at h
              obtain ⟨hb, -⟩ := h
              unfold usableSize
              rw [← hb]
              exact le_trans ha (liftBestFit_size hr)
  · rw [if_neg heff] at h
    dsimp only at h
    cases heffc : effectiveStrategy (alignSize size) strat with
    | bestFit =>
      rw [heffc] at h
      dsimp only at h
      cases hr : liftBestFit fs (alignSize size) with
      | none => rw [hr] at h; simp at h
      | some r =>
        obtain ⟨bb, ff⟩ := r
        rw [hr] at h
        dsimp only at h
        split_ifs at h <;>
        · rw [Option.some_inj, Prod.mk.injEq] at h
          obtain ⟨hb, -⟩ := h
          unfold usableSize
          rw [← hb]
          exact le_trans ha (liftBestFit_size hr)
    | poolBased =>
      rw [heffc] at h
      dsimp only at h
      cases hr : liftPoolBased fs (alignSize size) with
      | none => rw [hr] at h; simp at h
      | some r =>
        obtain ⟨bb, ff⟩ := r
        rw [hr] at h
        dsimp only at h
        split_ifs at h <;>
        · rw [Option.some_inj, Prod.mk.injEq] at h
          obtain ⟨hb, -⟩ := h
          unfold usableSize
          rw [← hb]
          exact le_trans ha (liftPoolBased_size hr)
    | segregated =>
      rw [heffc] at h
      dsimp only at h
      cases hr : allocateSegregatedFull fs (alignSize size) with
      | none => rw [hr] at h; simp at h
      | some r =>
        obtain ⟨bb, ff⟩ := r
        rw [hr] at h
        dsimp only at h
        split_ifs at h <;>
        · rw [Option.some_inj, Prod.mk.injEq] at h
          obtain ⟨hb, -⟩ := h
          unfold usableSize
          rw [← hb]
          refine le_trans ha (allocateSegregatedFull_size ?_ hr)
          intro h8
          exact hseg _ (lt_of_le_of_ne (selectSegClass_le_count _) h8)
    | fixedSize => exact absurd heffc heff

/-- A state with one cached 32-byte slab block, used to exercise the
thread-cache fast path on concrete inputs. -/
def c1fs : FullState :=
  { sampleFS with
      cacheSmall :=
        [{ addr := 9000, size := 32, isFree := true, strategy := Strategy.fixedSize }] }

theorem c1_witness :
    16 + 15 < U64 ∧ FullWF c1fs ∧
    (∀ b fs2, allocateFull c1fs 16 Strategy.bestFit = some (b, fs2) →
      16 ≤ usableSize b) :=
  ⟨by decide,
   ⟨by decide, by decide, by decide, by decide, by decide, by decide, by decide⟩,
   c1_usable_size_ge_request c1fs 16 Strategy.bestFit (by decide)
     ⟨by decide, by decide, by decide, by decide, by decide, by decide, by decide⟩⟩

/-- C1 counterexample to the unamended claim: requesting 2^64 - 1 bytes
wraps the aligned size to 0, the request is served from the 32-byte
slab cache, and the returned block's usable size 32 is far below the
requested size. -/
theorem c1_counterexample :
    (allocateFull c1fs (U64 - 1) Strategy.bestFit).map
        (fun r => usableSize r.1) = some 32 ∧
      32 < U64 - 1 := by
  constructor
  · decide
  · decide

/-! ## Scope handling on concrete exclusive-mode states -/

/-- An exclusive-mode (thread_safe = false) pool with one active scope
whose cohort tracks the payload at address 1032 (header at 1000). -/
def scopedFS : FullState :=
  { sampleFS with
      scopeStack := [[1032]]
      scopeLookup := [(1032, 0, 0)]
      activeScopeCount := 1 }

/-- The header contents of the tracked allocation at payload 1032. -/
def scopedBlock : Block :=
  { addr := 1000, size := 512, isFree := false, strategy := Strategy.segregated }

/-- C5: the scope-table removal in deallocate is guarded by thread_safe,
so in an exclusive-mode pool a direct deallocate of a scope-tracked
pointer leaves the pointer in its cohort and the following end_scope
hands the same pointer back to be deallocated a second time - a double
free, contradicting the claim for exclusive mode.  The same deallocate
with thread_safe set does remove it. -/
theorem c5_exclusive_scope_double_free :
    (deallocateFull scopedFS scopedBlock).scopeStack = [[1032]] ∧
    (endScopeFull (deallocateFull scopedFS scopedBlock)).2 = [1032] ∧
    (deallocateFull { scopedFS with threadSafe := true } scopedBlock).scopeStack
      = [[]] := by
  refine ⟨?_, ?_, ?_⟩ <;> decide

/-- An exclusive-mode pool with one open (empty) scope and one cached
32-byte slab block at header address 5000. -/
def emptyScopeFS : FullState :=
  { sampleFS with
      scopeStack := [[]]
      activeScopeCount := 1
      cacheSmall :=
        [{ addr := 5000, size := 32, isFree := true, strategy := Strategy.fixedSize }] }

/-- C6: the thread-cache fast path of allocate registers the payload in
the open scope only when thread_safe is set, so in an exclusive-mode
pool a fixed-size allocation that completes while the scope stack is
non-empty is neither appended to the top cohort nor given a lookup
entry, contradicting the claim; the same allocation with thread_safe
set is appended. -/
theorem c6_exclusive_fixed_not_tracked :
    (allocateFull emptyScopeFS 16 Strategy.bestFit).map
        (fun r => (r.1.addr, r.2.scopeStack, r.2.scopeLookup))
      = some (5000, [[]], []) ∧
    (allocateFull { emptyScopeFS with threadSafe := true } 16 Strategy.bestFit).map
        (fun r => (r.2.scopeStack, r.2.scopeLookup))
      = some ([[5032]], [(5032, 0, 0)]) := by
  refine ⟨?_, ?_⟩ <;> decide

/-- A scope-free state with one cached 32-byte slab block at header
address 7000. -/
def overflowFS : FullState :=
  { sampleFS with
      cacheSmall :=
        [{ addr := 7000, size := 32, isFree := true, strategy := Strategy.fixedSize }] }

/-- C7: align_size has no overflow check: for the maximal size_t request
the wrapping computation (size + 15) & ~15 yields 0, the request is
reclassified as fixed-size and served from the 32-byte slab cache, so
allocate returns non-null instead of the specified TooLarge null. -/
theorem c7_overflow_not_rejected :
    alignSize (U64 - 1) = 0 ∧
    (allocateFull overflowFS (U64 - 1) Strategy.bestFit).isSome = true := by
  refine ⟨?_, ?_⟩ <;> decide

/-! ## Reset -/

instance : IsTrans Nat (fun a b => a + POOL_SIZE < b) := by
  constructor
  intro a b c hab hbc
  omega

/-- The reset loop: laying a fresh chunk block over every chunk, in
order, starting from emptied free structures, appends one free block
per chunk (the chunks are spaced at least a chunk apart, so no
coalescing fires) and keeps the size index a permutation of the free
list. -/
theorem resetFoldSpec (chunks : List Nat) :
    ∀ s : PState,
      chunks.Chain' (fun a b => a + POOL_SIZE < b) →
      s.sizeIndex.Perm s.freeList →
      (∀ x ∈ s.freeList, ∀ c ∈ chunks, endA x < c) →
      (chunks.foldl (fun acc c => insertFreeBlock acc (chunkBlock c)) s).freeList
        = s.freeList ++ chunks.map chunkBlock ∧
      (chunks.foldl (fun acc c => insertFreeBlock acc (chunkBlock c)) s).sizeIndex.Perm
        (chunks.foldl (fun acc c => insertFreeBlock acc (chunkBlock c)) s).freeList ∧
      (chunks.foldl (fun acc c => insertFreeBlock acc (chunkBlock c)) s).chunks
        = s.chunks ∧
      (chunks.foldl (fun acc c => insertFreeBlock acc (chunkBlock c)) s).nextAddr
        = s.nextAddr := by
  induction chunks with
  | nil =>
    intro s hch hperm hall
    exact ⟨by simp, hperm, rfl, rfl⟩
  | cons c cs ih =>
    intro s hch hperm hall
    rw [List.foldl_cons]
    have hallc : ∀ x ∈ s.freeList, endA x < c := fun x hx =>
      hall x hx c (List.mem_cons_self _ _)
    have hfresh : ∀ x ∈ s.sizeIndex, x.addr ≠ (chunkBlock c).addr := by
      intro x hx
      have h1 := hallc x (hperm.mem_iff.mp hx)
      have h2 := addr_lt_endA x
      show x.addr ≠ c
      omega
    have happ := insertFreeBlock_append s (chunkBlock c) ⟨rfl, rfl⟩ hfresh hallc
    have hcs : ∀ c2 ∈ cs, c + POOL_SIZE < c2 :=
      (List.pairwise_cons.mp (List.chain'_iff_pairwise.mp hch)).1
    have hswap : (s.freeList ++ [chunkBlock c]).Perm (chunkBlock c :: s.freeList) := by
      simpa using @List.perm_middle _ (chunkBlock c) s.freeList []
    have hperm1 : (insertFreeBlock s (chunkBlock c)).sizeIndex.Perm
        (insertFreeBlock s (chunkBlock c)).freeList := by
      rw [happ.1, happ.2]
      exact (addToSizeIndex_perm _ _).trans ((hperm.cons _).trans hswap.symm)
    have hall1 : ∀ x ∈ (insertFreeBlock s (chunkBlock c)).freeList,
        ∀ c2 ∈ cs, endA x < c2 := by
      rw [happ.1]
      intro x hx c2 hc2
      rcases List.mem_append.mp hx with hx | hx
      · exact hall x hx c2 (List.mem_cons_of_mem _ hc2)
      · rcases List.mem_singleton.mp hx with rfl
        have hend : endA (chunkBlock c) = c + POOL_SIZE := by
          unfold endA chunkBlock
          dsimp only
          have hps : headerSize ≤ POOL_SIZE := by decide
          omega
        rw [hend]
        exact hcs c2 hc2
    obtain ⟨hf, hp, hc, hn⟩ := ih (insertFreeBlock s (chunkBlock c))
      hch.tail hperm1 hall1
    refine ⟨?_, hp, ?_, ?_⟩
    · rw [hf, happ.1]
      simp
    · exact hc.trans rfl
    · exact hn.trans rfl

/-- C8: reset clears the scope stack, the scope lookup, the segregated
lists and the three magazines, rebuilds the general pool so its free
list is exactly one fresh free BestFit block of payload POOL_SIZE minus
header per chunk in chunk order (hence exactly as many free blocks as
chunks) with the size index a permutation of it, keeps the chunk list,
and leaves all three statistics counters untouched; the hypothesis is
that the chunk bases are spaced more than a chunk apart, as add_new_chunk
lays them out. -/
theorem c8_reset_clears_and_rebuilds (fs : FullState)
    (hsp : fs.pool.chunks.Chain' (fun a b => a + POOL_SIZE < b)) :
    (resetFull fs).pool.freeList = fs.pool.chunks.map chunkBlock ∧
    (resetFull fs).pool.freeList.length = fs.pool.chunks.length ∧
    (resetFull fs).pool.sizeIndex.Perm ((resetFull fs).pool.freeList) ∧
    (resetFull fs).pool.chunks = fs.pool.chunks ∧
    (∀ blk ∈ (resetFull fs).pool.freeList,
      blk.size = POOL_SIZE - headerSize ∧ blk.isFree = true ∧
        blk.strategy = Strategy.bestFit) ∧
    (resetFull fs).scopeStack = [] ∧
    (resetFull fs).scopeLookup = [] ∧
    (resetFull fs).segLists = List.replicate SEGREGATED_CLASS_COUNT [] ∧
    (resetFull fs).cacheSmall = [] ∧
    (resetFull fs).cacheMedium = [] ∧
    (resetFull fs).cacheLarge = [] ∧
    (resetFull fs).statsAllocs = fs.statsAllocs ∧
    (resetFull fs).statsDeallocs = fs.statsDeallocs ∧
    (resetFull fs).statsBytes = fs.statsBytes := by
  obtain ⟨hf, hp, hc, hn⟩ := resetFoldSpec fs.pool.chunks
    { freeList := [], sizeIndex := [],
      chunks := fs.pool.chunks, nextAddr := fs.pool.nextAddr }
    hsp (List.Perm.refl _) (by intro x hx; simp at hx)
  unfold resetFull
  dsimp only
  refine ⟨?_, ?_, hp, hc, ?_, rfl, rfl, rfl, rfl, rfl, rfl, rfl, rfl, rfl⟩
  · rw [hf]
    simp
  · rw [hf]
    simp
  · rw [hf]
    intro blk hblk
    simp only [List.nil_append, List.mem_map] at hblk
    obtain ⟨cc, -, rfl⟩ := hblk
    exact ⟨rfl, rfl, rfl⟩

theorem c8_witness :
    sampleFS.pool.chunks.Chain' (fun a b => a + POOL_SIZE < b) ∧
    (resetFull sampleFS).pool.freeList = sampleFS.pool.chunks.map chunkBlock ∧
    (resetFull sampleFS).statsBytes = sampleFS.statsBytes := by
  have hch : sampleFS.pool.chunks.Chain' (fun a b => a + POOL_SIZE < b) :=
    List.chain'_singleton _
  have h := c8_reset_clears_and_rebuilds sampleFS hch
  exact ⟨hch, h.1, h.2.2.2.2.2.2.2.2.2.2.2.2.2⟩

/-! ## The segregated-class invariant -/

/-- Invariant 6 of the spec as a state predicate: every member of every
class list carries the class's exact size and the Segregated tag. -/
def SegWF (fs : FullState) : Prop :=
  ∀ i < SEGREGATED_CLASS_COUNT, ∀ blk ∈ fs.segList i,
    blk.size = SEGREGATED_CLASS_SIZES.getD i 0 ∧
    blk.strategy = Strategy.segregated

instance (fs : FullState) : Decidable (SegWF fs) :=
  inferInstanceAs (Decidable (∀ i < SEGREGATED_CLASS_COUNT, ∀ blk ∈ fs.segList i,
    blk.size = SEGREGATED_CLASS_SIZES.getD i 0 ∧
    blk.strategy = Strategy.segregated))

theorem segListD_set_self {ls : List (List Block)} {i : Nat} {x : List Block}
    (h : i < ls.length) : (ls.set i x).getD i [] = x := by
  simp [List.getD, List.getElem?_set_self, h]

theorem segListD_set_ne {ls : List (List Block)} {i j : Nat} {x : List Block}
    (h : i ≠ j) : (ls.set i x).getD j [] = ls.getD j [] := by
  simp [List.getD, List.getElem?_set_ne h]

theorem scopeRemove_segLists (fs : FullState) (p : Nat) :
    (scopeRemove fs p).segLists = fs.segLists := by
  unfold scopeRemove
  cases lookupFind fs.scopeLookup p with
  | none => rfl
  | some e =>
    dsimp only
    split_ifs <;> rfl

theorem releaseToCache_segLists (sel : SlabSel) (fs : FullState) (b : Block) :
    (releaseToCache sel fs b).segLists = fs.segLists := by
  unfold releaseToCache
  split_ifs <;> cases sel <;> rfl

theorem replenishFull_segwf (fs : FullState) (ci : Nat) (h : SegWF fs) :
    SegWF (replenishFull fs ci) := by
  intro i hi blk hblk
  unfold replenishFull at hblk
  by_cases h8 : SEGREGATED_CLASS_COUNT ≤ ci
  · rw [if_pos h8] at hblk
    exact h i hi blk hblk
  · rw [if_neg h8] at hblk
    dsimp only at hblk
    split_ifs at hblk with hover hrem
    · exact h i hi blk hblk
    · dsimp only [FullState.segList] at hblk
      by_cases hij : ci = i
      · subst hij
        rcases mem_segListD_set hblk with hblk | hblk
        · rcases List.mem_append.mp hblk with hblk | hblk
          · obtain ⟨h1, h2, -⟩ := segPartition_mem _ _ _ blk hblk
            exact ⟨h1, h2⟩
          · exact h ci hi blk hblk
        · exact h ci hi blk hblk
      · rw [segListD_set_ne hij] at hblk
        exact h i hi blk hblk
    · dsimp only [FullState.segList] at hblk
      by_cases hij : ci = i
      · subst hij
        rcases mem_segListD_set hblk with hblk | hblk
        · rcases List.mem_append.mp hblk with hblk | hblk
          · obtain ⟨h1, h2, -⟩ := segPartition_mem _ _ _ blk hblk
            exact ⟨h1, h2⟩
          · exact h ci hi blk hblk
        · exact h ci hi blk hblk
      · rw [segListD_set_ne hij] at hblk
        exact h i hi blk hblk

theorem deallocateFull_segwf (fs : FullState) (b : Block) (h : SegWF fs)
    (hbsz : b.strategy = Strategy.segregated →
      b.size = SEGREGATED_CLASS_SIZES.getD (selectSegClass b.size) 0) :
    SegWF (deallocateFull fs b) := by
  intro i hi blk hblk
  unfold deallocateFull at hblk
  dsimp only at hblk
  set fs0 := if fs.threadSafe = true ∧ 0 < fs.activeScopeCount
    then scopeRemove fs (b.addr + headerSize) else fs with hdef
  have hseg0 : fs0.segLists = fs.segLists := by
    rw [hdef]
    split_ifs with h1
    · exact scopeRemove_segLists fs _
    · rfl
  cases hstrat : b.strategy with
  | fixedSize =>
    rw [hstrat] at hblk
    dsimp only at hblk
    split_ifs at hblk <;>
      first
        | (unfold releaseToCache at hblk
           split_ifs at hblk <;>
             (dsimp only [FullState.setCache, FullState.setSlab, bumpDeallocStats,
                FullState.segList] at hblk
              rw [hseg0] at hblk
              exact h i hi blk hblk))
        | (dsimp only [deallocateBlockFull, bumpDeallocStats, FullState.segList] at hblk
           rw [hseg0] at hblk
           exact h i hi blk hblk)
  | segregated =>
    rw [hstrat] at hblk
    dsimp only at hblk
    by_cases hci : selectSegClass b.size < SEGREGATED_CLASS_COUNT
    · rw [if_pos hci] at hblk
      dsimp only [bumpDeallocStats, FullState.setSegList, FullState.segList] at hblk
      rw [hseg0] at hblk
      by_cases hij : selectSegClass b.size = i
      · subst hij
        rcases mem_segListD_set hblk with hblk | hblk
        · rcases List.mem_cons.mp hblk with rfl | hblk
          · exact ⟨hbsz hstrat, rfl⟩
          · exact h _ hi blk hblk
        · exact h _ hi blk hblk
      · rw [segListD_set_ne hij] at hblk
        exact h i hi blk hblk
    · rw [if_neg hci] at hblk
      dsimp only [bumpDeallocStats, FullState.segList] at hblk
      rw [hseg0] at hblk
      exact h i hi blk hblk
  | bestFit =>
    rw [hstrat] at hblk
    dsimp only at hblk
    dsimp only [deallocateBlockFull, bumpDeallocStats, FullState.segList] at hblk
    rw [hseg0] at hblk
    exact h i hi blk hblk
  | poolBased =>
    rw [hstrat] at hblk
    dsimp only at hblk
    dsimp only [deallocateBlockFull, bumpDeallocStats, FullState.segList] at hblk
    rw [hseg0] at hblk
    exact h i hi blk hblk

theorem deallocateFull_seg_push (fs : FullState) (b : Block)
    (hstrat : b.strategy = Strategy.segregated)
    (hci : selectSegClass b.size < SEGREGATED_CLASS_COUNT)
    (hlen : fs.segLists.length = SEGREGATED_CLASS_COUNT) :
    (deallocateFull fs b).segList (selectSegClass b.size)
      = { b with isFree := true, strategy := Strategy.segregated }
          :: fs.segList (selectSegClass b.size) := by
  unfold deallocateFull
  dsimp only
  set fs0 := if fs.threadSafe = true ∧ 0 < fs.activeScopeCount
    then scopeRemove fs (b.addr + headerSize) else fs with hdef
  have hseg0 : fs0.segLists = fs.segLists := by
    rw [hdef]
    split_ifs with h1
    · exact scopeRemove_segLists fs _
    · rfl
  rw [hstrat]
  dsimp only
  rw [if_pos hci]
  dsimp only [bumpDeallocStats, FullState.setSegList, FullState.segList]
  rw [hseg0]
  rw [segListD_set_self (by omega)]

/-- Shape of the segPartition loop: it carves exactly total / (classSize
+ header) blocks, leaves total mod (classSize + header) bytes, and
advances the cursor past the carved region. -/
theorem segPartition_spec :
    ∀ total cursor cs,
      (segPartition cursor total cs).chain.length = total / (cs + headerSize) ∧
      (segPartition cursor total cs).leftover = total % (cs + headerSize) ∧
      (segPartition cursor total cs).cursor
        = cursor + total / (cs + headerSize) * (cs + headerSize) := by
  intro total
  induction total using Nat.strong_induction_on with
  | _ total ih =>
    intro cursor cs
    rw [segPartition]
    by_cases hle : cs + headerSize ≤ total
    · rw [dif_pos hle]
      dsimp only
      have h32 : headerSize = 32 := rfl
      obtain ⟨ihl, ihr, ihc⟩ := ih (total - (cs + headerSize)) (by omega)
        (cursor + cs + headerSize) cs
      have hpos : 0 < cs + headerSize := by omega
      have hdiv : total / (cs + headerSize)
          = (total - (cs + headerSize)) / (cs + headerSize) + 1 :=
        Nat.div_eq_sub_div hpos hle
      have hmod : total % (cs + headerSize)
          = (total - (cs + headerSize)) % (cs + headerSize) :=
        Nat.mod_eq_sub_mod hle
      refine ⟨?_, ?_, ?_⟩
      · rw [List.length_append, ihl, hdiv]
        simp
      · rw [ihr, hmod]
      · rw [ihc, hdiv, Nat.succ_mul]
        omega
    · rw [dif_neg hle]
      dsimp only
      refine ⟨?_, ?_, ?_⟩
      · rw [Nat.div_eq_of_lt (by omega)]
        rfl
      · rw [Nat.mod_eq_of_lt (by omega)]
      · rw [Nat.div_eq_of_lt (by omega)]
        simp

theorem find?_append_last {l : List Block} {y : Block} {p : Block → Bool}
    (hl : ∀ x ∈ l, p x = false) (hy : p y = true) :
    (l ++ [y]).find? p = some y := by
  induction l with
  | nil =>
    simp only [List.nil_append]
    exact List.find?_cons_of_pos _ hy
  | cons x xs ih =>
    rw [List.cons_append,
      List.find?_cons_of_neg _ (by simp [hl x (List.mem_cons_self _ _)])]
    exact ih fun z hz => hl z (List.mem_cons_of_mem _ hz)

/-- The refill of a segregated class on a well-formed pool: the fresh
chunk is detached again in full, the partition chain is spliced onto
the class list, and the remainder goes back to the general free list
exactly when it exceeds a header. -/
theorem replenishFull_shape (fs : FullState) (ci : Nat)
    (hci : ci < SEGREGATED_CLASS_COUNT)
    (hlen : fs.segLists.length = SEGREGATED_CLASS_COUNT)
    (hpool : PoolWF fs.pool) :
    (replenishFull fs ci).segList ci
      = (segPartition fs.pool.nextAddr POOL_SIZE
          (SEGREGATED_CLASS_SIZES.getD ci 0)).chain ++ fs.segList ci ∧
    (headerSize < POOL_SIZE % (SEGREGATED_CLASS_SIZES.getD ci 0 + headerSize) →
      (replenishFull fs ci).pool.freeList
        = fs.pool.freeList ++
          [{ addr := fs.pool.nextAddr
               + POOL_SIZE / (SEGREGATED_CLASS_SIZES.getD ci 0 + headerSize)
                 * (SEGREGATED_CLASS_SIZES.getD ci 0 + headerSize)
             size := POOL_SIZE % (SEGREGATED_CLASS_SIZES.getD ci 0 + headerSize)
               - headerSize
             isFree := true
             strategy := Strategy.bestFit }]) ∧
    (POOL_SIZE % (SEGREGATED_CLASS_SIZES.getD ci 0 + headerSize) ≤ headerSize →
      (replenishFull fs ci).pool.freeList = fs.pool.freeList) := by
  have hadd := addNewChunk_wf fs.pool hpool
  obtain ⟨-, haddFL, haddSI, haddCH, -⟩ := hadd
  obtain ⟨hgap, hperm, hsort, hfree, hbnd⟩ := hpool
  have h32 : headerSize = 32 := rfl
  have hP : POOL_SIZE = 1048576 := rfl
  have hbase : (addNewChunk fs.pool).chunks.getLastD 0 = fs.pool.nextAddr := by
    rw [haddCH]
    exact List.getLastD_concat _ _ _
  have hfind : ((addNewChunk fs.pool).freeList.find?
      (fun x => decide (x.addr = fs.pool.nextAddr)))
      = some (chunkBlock fs.pool.nextAddr) := by
    rw [haddFL]
    apply find?_append_last
    · intro x hx
      have h1 := hbnd x hx
      have h2 := addr_lt_endA x
      simp only [decide_eq_false_iff_not]
      omega
    · simp [chunkBlock]
  have hp2fl : (detachFreeBlock (addNewChunk fs.pool) fs.pool.nextAddr).freeList
      = fs.pool.freeList := by
    unfold detachFreeBlock
    dsimp only
    rw [haddFL]
    have h0 := @eraseByAddr_append_mem (chunkBlock fs.pool.nextAddr) fs.pool.freeList []
      (fun x hx => by
        have h1 := hbnd x hx
        have h2 := addr_lt_endA x
        show x.addr ≠ fs.pool.nextAddr
        omega)
    rw [show (chunkBlock fs.pool.nextAddr).addr = fs.pool.nextAddr from rfl] at h0
    simpa using h0
  have hp2si : (detachFreeBlock (addNewChunk fs.pool) fs.pool.nextAddr).sizeIndex
      = eraseByAddr fs.pool.nextAddr
          (addToSizeIndex (chunkBlock fs.pool.nextAddr) fs.pool.sizeIndex) := by
    unfold detachFreeBlock
    dsimp only
    rw [haddSI]
  have hcs4096 : SEGREGATED_CLASS_SIZES.getD ci 0 ≤ 4096 := by
    have hall8 : ∀ j < SEGREGATED_CLASS_COUNT,
        SEGREGATED_CLASS_SIZES.getD j 0 ≤ 4096 := by decide
    exact hall8 ci hci
  have hq1 : 1 ≤ POOL_SIZE / (SEGREGATED_CLASS_SIZES.getD ci 0 + headerSize) :=
    (Nat.one_le_div_iff (by omega)).mpr (by omega)
  have hqd : SEGREGATED_CLASS_SIZES.getD ci 0 + headerSize ≤
      POOL_SIZE / (SEGREGATED_CLASS_SIZES.getD ci 0 + headerSize)
        * (SEGREGATED_CLASS_SIZES.getD ci 0 + headerSize) := by
    have := Nat.le_mul_of_pos_left
      (SEGREGATED_CLASS_SIZES.getD ci 0 + headerSize) hq1
    omega
  obtain ⟨hplen, hplft, hpcur⟩ := segPartition_spec POOL_SIZE fs.pool.nextAddr
    (SEGREGATED_CLASS_SIZES.getD ci 0)
  unfold replenishFull
  rw [if_neg (by omega)]
  dsimp only
  rw [hbase, hfind]
  dsimp only [Option.getD]
  have hguard : ¬ (U64 - 1 - headerSize < (chunkBlock fs.pool.nextAddr).size) := by
    rw [show (chunkBlock fs.pool.nextAddr).size = POOL_SIZE - headerSize from rfl]
    decide
  rw [if_neg hguard]
  rw [show (chunkBlock fs.pool.nextAddr).addr = fs.pool.nextAddr from rfl]
  rw [show (chunkBlock fs.pool.nextAddr).size = POOL_SIZE - headerSize from rfl]
  rw [show POOL_SIZE - headerSize + headerSize = POOL_SIZE from by decide]
  rw [hplft, hpcur]
  refine ⟨?_, ?_, ?_⟩
  · split_ifs with hr
    · dsimp only [FullState.segList]
      rw [segListD_set_self (by omega)]
    · dsimp only [FullState.segList]
      rw [segListD_set_self (by omega)]
  · intro hrem
    rw [if_pos hrem]
    dsimp only
    have hfresh : ∀ x ∈ (detachFreeBlock (addNewChunk fs.pool)
        fs.pool.nextAddr).sizeIndex,
        x.addr ≠ fs.pool.nextAddr
          + POOL_SIZE / (SEGREGATED_CLASS_SIZES.getD ci 0 + headerSize)
            * (SEGREGATED_CLASS_SIZES.getD ci 0 + headerSize) := by
      rw [hp2si]
      intro x hx
      rcases mem_addToSizeIndex.mp (mem_eraseByAddr hx) with rfl | hx2
      · show (chunkBlock fs.pool.nextAddr).addr ≠ _
        rw [show (chunkBlock fs.pool.nextAddr).addr = fs.pool.nextAddr from rfl]
        omega
      · have h1 := hbnd x (hperm.mem_iff.mp hx2)
        have h2 := addr_lt_endA x
        omega
    have hall : ∀ x ∈ (detachFreeBlock (addNewChunk fs.pool)
        fs.pool.nextAddr).freeList,
        endA x < fs.pool.nextAddr
          + POOL_SIZE / (SEGREGATED_CLASS_SIZES.getD ci 0 + headerSize)
            * (SEGREGATED_CLASS_SIZES.getD ci 0 + headerSize) := by
      rw [hp2fl]
      intro x hx
      have h1 := hbnd x hx
      omega
    have happ := insertFreeBlock_append
      (detachFreeBlock (addNewChunk fs.pool) fs.pool.nextAddr)
      { addr := fs.pool.nextAddr
          + POOL_SIZE / (SEGREGATED_CLASS_SIZES.getD ci 0 + headerSize)
            * (SEGREGATED_CLASS_SIZES.getD ci 0 + headerSize)
        size := POOL_SIZE % (SEGREGATED_CLASS_SIZES.getD ci 0 + headerSize)
          - headerSize
        isFree := true
        strategy := Strategy.bestFit }
      ⟨rfl, rfl⟩ hfresh hall
    rw [happ.1, hp2fl]
  · intro hnorem
    rw [if_neg (by omega)]
    dsimp only
    exact hp2fl

/-- C9: every segregated class list holds blocks of exactly the class
size tagged Segregated; the invariant is kept by the class refill and
by deallocation; the refill splices the partition chain of a fresh
chunk LIFO onto the class list, carving the maximal POOL_SIZE /
(class_size + header_size) blocks each of the class size and tag, and
appends the remainder to the BestFit free list as a free BestFit block
exactly when it exceeds a header; deallocating a Segregated block
pushes it, re-tagged free, onto the class matching its size. -/
theorem c9_segregated_class_invariant (fs : FullState) (ci : Nat) (b : Block)
    (hwf : SegWF fs) (hlen : fs.segLists.length = SEGREGATED_CLASS_COUNT)
    (hpool : PoolWF fs.pool)
    (hbsz : b.strategy = Strategy.segregated →
      b.size = SEGREGATED_CLASS_SIZES.getD (selectSegClass b.size) 0) :
    SegWF (replenishFull fs ci) ∧
    SegWF (deallocateFull fs b) ∧
    (b.strategy = Strategy.segregated →
      selectSegClass b.size < SEGREGATED_CLASS_COUNT →
      (deallocateFull fs b).segList (selectSegClass b.size)
        = { b with isFree := true, strategy := Strategy.segregated }
            :: fs.segList (selectSegClass b.size)) ∧
    (ci < SEGREGATED_CLASS_COUNT →
      (replenishFull fs ci).segList ci
        = (segPartition fs.pool.nextAddr POOL_SIZE
            (SEGREGATED_CLASS_SIZES.getD ci 0)).chain ++ fs.segList ci ∧
      (segPartition fs.pool.nextAddr POOL_SIZE
          (SEGREGATED_CLASS_SIZES.getD ci 0)).chain.length
        = POOL_SIZE / (SEGREGATED_CLASS_SIZES.getD ci 0 + headerSize) ∧
      (∀ blk ∈ (segPartition fs.pool.nextAddr POOL_SIZE
          (SEGREGATED_CLASS_SIZES.getD ci 0)).chain,
        blk.size = SEGREGATED_CLASS_SIZES.getD ci 0 ∧
        blk.strategy = Strategy.segregated ∧ blk.isFree = true) ∧
      (headerSize < POOL_SIZE % (SEGREGATED_CLASS_SIZES.getD ci 0 + headerSize) →
        (replenishFull fs ci).pool.freeList
          = fs.pool.freeList ++
            [{ addr := fs.pool.nextAddr
                 + POOL_SIZE / (SEGREGATED_CLASS_SIZES.getD ci 0 + headerSize)
                   * (SEGREGATED_CLASS_SIZES.getD ci 0 + headerSize)
               size := POOL_SIZE % (SEGREGATED_CLASS_SIZES.getD ci 0 + headerSize)
                 - headerSize
               isFree := true
               strategy := Strategy.bestFit }]) ∧
      (POOL_SIZE % (SEGREGATED_CLASS_SIZES.getD ci 0 + headerSize) ≤ headerSize →
        (replenishFull fs ci).pool.freeList = fs.pool.freeList)) := by
  refine ⟨replenishFull_segwf fs ci hwf,
    deallocateFull_segwf fs b hwf hbsz, ?_, ?_⟩
  · intro hstrat hci
    exact deallocateFull_seg_push fs b hstrat hci hlen
  · intro hci
    obtain ⟨h1, h2, h3⟩ := replenishFull_shape fs ci hci hlen hpool
    exact ⟨h1, (segPartition_spec POOL_SIZE _ _).1, segPartition_mem _ _ _, h2, h3⟩

theorem c9_witness :
    SegWF sampleFS ∧
    sampleFS.segLists.length = SEGREGATED_CLASS_COUNT ∧
    SegWF (deallocateFull sampleFS
      { addr := 2000, size := 64, isFree := false,
        strategy := Strategy.segregated }) ∧
    (deallocateFull sampleFS
        { addr := 2000, size := 64, isFree := false,
          strategy := Strategy.segregated }).segList (selectSegClass 64)
      = { addr := 2000, size := 64, isFree := true,
          strategy := Strategy.segregated }
          :: sampleFS.segList (selectSegClass 64) := by
  have h := c9_segregated_class_invariant sampleFS 0
    { addr := 2000, size := 64, isFree := false, strategy := Strategy.segregated }
    (by decide) (by decide) samplePoolWF (by decide)
  exact ⟨by decide, by decide, h.2.1, h.2.2.1 rfl (by decide)⟩

end MemPool
